import Mathlib

/-!
Verification of the audiobook-maker document-to-speech pipeline.

Shallow embedding of the chunk planner, the narration text cleanup, the
content classifier, the chapter-subset filter and the synthesis-engine
loop from `audiobook_app.py` and `epub_to_tts.py`.  Python strings are
modelled as `List Char`.  Python's whitespace handling is modelled on the
ASCII whitespace characters and `\w` on ASCII alphanumerics; the inputs
quantified over and the concrete inputs evaluated here stay within that
fragment.  Python float ratio comparisons (`x / n > 0.4` and similar) are
modelled as exact integer inequalities; for the fraction families these
functions compare, double rounding agrees with the exact comparison.
-/

set_option maxRecDepth 8000

/-- Python `str` whitespace (`str.strip()`, `\s`), ASCII fragment:
space, tab, newline, carriage return, vertical tab, form feed. -/
def pySpace (c : Char) : Bool :=
  c = ' ' || c = '\t' || c = '\n' || c = '\r' || c = '\x0b' || c = '\x0c'

/-- Python `s.strip()`: drop leading and trailing whitespace. -/
def pyStrip (l : List Char) : List Char :=
  ((l.dropWhile pySpace).reverse.dropWhile pySpace).reverse

/-- The non-whitespace content of a string: what "no non-whitespace
character dropped or duplicated, order preserved" quantifies over. -/
def nonWs (l : List Char) : List Char :=
  l.filter (fun c => !pySpace c)

/-- Python `s.split(c)` for a one-character separator
(`"".split(c) == [""]`; separators are not kept). -/
def splitCh (c : Char) : List Char → List (List Char)
  | [] => [[]]
  | a :: r =>
    if a = c then [] :: splitCh c r
    else
      match splitCh c r with
      | [] => [[a]]
      | h :: t => (a :: h) :: t

/-- Python `s.split(d + " ")` for a two-character separator (punctuation
character followed by a space), scanning left to right, non-overlapping. -/
def splitSeq (d : Char) : List Char → List (List Char)
  | [] => [[]]
  | [a] => [[a]]
  | a :: b :: r =>
    if a = d ∧ b = ' ' then [] :: splitSeq d r
    else
      match splitSeq d (b :: r) with
      | [] => [[a]]
      | h :: t => (a :: h) :: t

/-- Python `(d + " ") in s`: does the two-character separator occur? -/
def hasPair (d : Char) : List Char → Bool
  | a :: b :: r => (a = d && b = ' ') || hasPair d (b :: r)
  | _ => false

/-- Python `sep.join(pieces)`. -/
def joinSep (sep : List Char) : List (List Char) → List Char
  | [] => []
  | [x] => x
  | x :: y :: t => x ++ sep ++ joinSep sep (y :: t)

/-- `[p + sep.strip() for p in parts[:-1]] + [parts[-1]]` from
`split_text_into_chunks`: re-attach the punctuation character to every
part except the last. -/
def mkSentences (d : Char) : List (List Char) → List (List Char)
  | [] => []
  | [x] => [x]
  | x :: y :: t => (x ++ [d]) :: mkSentences d (y :: t)

/-- The sentence-delimiter priority list `[". ", "! ", "? ", "; "]` of
`split_text_into_chunks`, identified by punctuation character. -/
def sepCandidates : List Char := ['.', '!', '?', ';']

/-- The first delimiter of the priority list occurring in the paragraph. -/
def firstSep (para : List Char) : Option Char :=
  sepCandidates.find? (fun d => hasPair d para)

/-- The sentence list `split_text_into_chunks` builds for an over-budget
paragraph: split on the first delimiter found, else the whole paragraph is
one unsplittable "sentence". -/
def sentencesOf (para : List Char) : List (List Char) :=
  match firstSep para with
  | some d => mkSentences d (splitSeq d para)
  | none => [para]

/-- One step of the inner sentence-accumulation loop of
`split_text_into_chunks`; state: (chunks so far, running buffer `temp`). -/
def sentStep (maxChars : Nat) (st : List (List Char) × List Char) (s : List Char) :
    List (List Char) × List Char :=
  if st.2.length + s.length + 1 > maxChars then
    (if pyStrip st.2 ≠ [] then st.1 ++ [pyStrip st.2] else st.1, s)
  else
    (st.1, if st.2 ≠ [] then st.2 ++ ' ' :: s else s)

/-- One step of the outer paragraph loop of `split_text_into_chunks`;
state: (chunks so far, running buffer `current`). -/
def paraStep (maxChars : Nat) (st : List (List Char) × List Char) (para0 : List Char) :
    List (List Char) × List Char :=
  let para := pyStrip para0
  if para = [] then
    (st.1, if st.2 ≠ [] then st.2 ++ ['\n'] else st.2)
  else if st.2.length + para.length + 1 > maxChars then
    let chunks1 := if pyStrip st.2 ≠ [] then st.1 ++ [pyStrip st.2] else st.1
    if para.length > maxChars then
      (sentencesOf para).foldl (sentStep maxChars) (chunks1, [])
    else
      (chunks1, para)
  else
    (st.1, if st.2 ≠ [] then st.2 ++ ' ' :: para else para)

/-- `split_text_into_chunks(text, max_chars)` from `audiobook_app.py`:
split on newlines into paragraphs, accumulate them into chunks of at most
`maxChars` characters, splitting over-budget paragraphs on the first
sentence delimiter found; if nothing was produced, return the original
text unchanged as a single chunk. -/
def split_text_into_chunks (text : List Char) (maxChars : Nat) : List (List Char) :=
  let st := (splitCh '\n' text).foldl (paraStep maxChars) ([], [])
  let chunks := if pyStrip st.2 ≠ [] then st.1 ++ [pyStrip st.2] else st.1
  if chunks = [] then [text] else chunks

/-- `CHUNK_MAX_CHARS` from `audiobook_app.py`. -/
def CHUNK_MAX_CHARS : Nat := 2000

/-- Scanner for one pass of `re.sub(r'\([^()]*\)', '', text)` (and the
square-bracket analogue) from `_strip_parenthetical`: remove every
innermost bracket pair `o ... c` whose content contains neither bracket,
scanning left to right.  `buf = some content` means an opening bracket
has been seen and `content` (bracket-free) is pending after it. -/
def subBrAux (o c : Char) : Option (List Char) → List Char → List Char
  | none, [] => []
  | some content, [] => o :: content
  | buf, a :: r =>
    if a = o then
      match buf with
      | none => subBrAux o c (some []) r
      | some content => o :: content ++ subBrAux o c (some []) r
    else if a = c then
      match buf with
      | none => a :: subBrAux o c none r
      | some _ => subBrAux o c none r
    else
      match buf with
      | none => a :: subBrAux o c none r
      | some content => subBrAux o c (some (content ++ [a])) r

/-- One pass of `re.sub(r'\([^()]*\)', '', text)` (resp. square
brackets): delete each innermost `o ... c` span, left to right. -/
def subBr (o c : Char) (l : List Char) : List Char :=
  subBrAux o c none l

/-- The `while prev != text` loop of `_strip_parenthetical`, with explicit
fuel: repeatedly remove innermost round then square bracket spans until a
fixpoint is reached.  Each productive iteration removes at least one
character, so `length + 1` fuel always reaches the fixpoint. -/
def stripLoop : Nat → List Char → List Char
  | 0, l => l
  | n + 1, l =>
    let l2 := subBr '[' ']' (subBr '(' ')' l)
    if l2 = l then l else stripLoop n l2

/-- Scanner for `re.sub(r'\s+', ' ', text)`; `inRun` records whether the
previous character was whitespace. -/
def collapseWsAux (inRun : Bool) : List Char → List Char
  | [] => []
  | a :: r =>
    if pySpace a then
      (if inRun then [] else [' ']) ++ collapseWsAux true r
    else a :: collapseWsAux false r

/-- `re.sub(r'\s+', ' ', text)`: replace every maximal whitespace run with
a single space. -/
def collapseWs (l : List Char) : List Char :=
  collapseWsAux false l

/-- The punctuation class `[,;:.!?]` of `_strip_parenthetical`. -/
def isPunctCls (c : Char) : Bool :=
  c = ',' || c = ';' || c = ':' || c = '.' || c = '!' || c = '?'

/-- Scanner for `re.sub(r'\s+([,;:.!?])', r'\1', text)`; `pending` holds
the current whitespace run, not yet emitted. -/
def fixPunctAux (pending : List Char) : List Char → List Char
  | [] => pending
  | a :: r =>
    if pySpace a then fixPunctAux (pending ++ [a]) r
    else if isPunctCls a then a :: fixPunctAux [] r
    else pending ++ a :: fixPunctAux [] r

/-- `re.sub(r'\s+([,;:.!?])', r'\1', text)`: delete any whitespace run
that directly precedes a punctuation character. -/
def fixPunct (l : List Char) : List Char :=
  fixPunctAux [] l

/-- `_strip_parenthetical(text)` from `audiobook_app.py`: iteratively
remove innermost round/square bracket spans, then collapse whitespace,
remove whitespace before punctuation and strip. -/
def _strip_parenthetical (l : List Char) : List Char :=
  pyStrip (fixPunct (collapseWs (stripLoop (l.length + 1) l)))

/-- Python `len(s.split())`: number of maximal non-whitespace runs;
`prevWs` records whether the previous character was whitespace (or the
start of the string). -/
def pyWordCountAux (prevWs : Bool) : List Char → Nat
  | [] => 0
  | c :: r =>
    (if pySpace c then 0 else if prevWs then 1 else 0) + pyWordCountAux (pySpace c) r

/-- Python `len(s.split())`. -/
def pyWordCount (l : List Char) : Nat := pyWordCountAux true l

/-- `Chapter` from `epub_to_tts.py` (narration-relevant fields). -/
structure Chapter where
  index : Nat
  title : List Char
  text : List Char
  word_count : Nat
  char_count : Nat
deriving DecidableEq, Repr

/-- `Chapter.__post_init__`: `word_count`/`char_count` derived from the
text. -/
def mkChapter (i : Nat) (title text : List Char) : Chapter :=
  ⟨i, title, text, pyWordCount text, text.length⟩

/-- `BookInfo` from `epub_to_tts.py`. -/
structure BookInfo where
  title : List Char
  author : List Char
  language : List Char
  publisher : List Char
  description : List Char
  chapters : List Chapter
  total_words : Nat
  total_chars : Nat
  estimated_duration_minutes : Rat
deriving DecidableEq, Repr

/-- One entry of the chunk plan built by `_plan_chunks`. -/
structure ChunkPlanEntry where
  chapter_index : Nat
  chapter_title : List Char
  chunk_index : Nat
  chunks_in_chapter : Nat
  text : List Char
  chars : Nat
deriving DecidableEq, Repr

/-- Python `enumerate`, with a starting index. -/
def withIdx (n : Nat) : List α → List (Nat × α)
  | [] => []
  | a :: r => (n, a) :: withIdx (n + 1) r

/-- The plan entries `_plan_chunks` emits for one chapter: strip
parentheticals from the body, prepend `"<title>.\n\n"`, chunk, and tag
each chunk with its position. -/
def chapterEntries (ch : Chapter) : List ChunkPlanEntry :=
  let clean_text := _strip_parenthetical ch.text
  let full_text := ch.title ++ '.' :: '\n' :: '\n' :: clean_text
  let chunks := split_text_into_chunks full_text CHUNK_MAX_CHARS
  (withIdx 0 chunks).map (fun p =>
    { chapter_index := ch.index, chapter_title := ch.title, chunk_index := p.1,
      chunks_in_chapter := chunks.length, text := p.2, chars := p.2.length })

/-- `_plan_chunks(info)` from `audiobook_app.py`: the ordered chunk plan
across all chapters. -/
def _plan_chunks (info : BookInfo) : List ChunkPlanEntry :=
  (info.chapters.map chapterEntries).flatten

/-- The character class removed by `generate_chunk_mp3`'s sanitization
regex: control characters (except newline/tab), DEL, zero-width and
line/paragraph separator characters, BOM and non-characters. -/
def isRemovable (ch : Char) : Bool :=
  ch.toNat ≤ 0x08 || ch.toNat = 0x0b || ch.toNat = 0x0c ||
  (0x0e ≤ ch.toNat && ch.toNat ≤ 0x1f) || ch.toNat = 0x7f ||
  (0x200b ≤ ch.toNat && ch.toNat ≤ 0x200f) ||
  (0x2028 ≤ ch.toNat && ch.toNat ≤ 0x202f) ||
  ch.toNat = 0xfeff || ch.toNat = 0xfffe || ch.toNat = 0xffff

/-- Scanner replacing every maximal run of `c` of length ≥ 3 by `repl`;
`pending` counts the `c`-run seen so far and not yet emitted. -/
def squashAux (c : Char) (repl : List Char) (pending : Nat) : List Char → List Char
  | [] => if pending ≥ 3 then repl else List.replicate pending c
  | a :: r =>
    if a = c then squashAux c repl (pending + 1) r
    else
      (if pending ≥ 3 then repl else List.replicate pending c) ++
        a :: squashAux c repl 0 r

/-- Replace every maximal run of the character `c` of length ≥ 3 by
`repl` (`re.sub(r'\n{3,}', '\n\n', s)` and `re.sub(r' {3,}', ' ', s)`). -/
def squashRuns (c : Char) (repl : List Char) (l : List Char) : List Char :=
  squashAux c repl 0 l

/-- The text-sanitization pipeline of `generate_chunk_mp3`: strip, remove
the removable character class, collapse 3+ newlines to 2 and 3+ spaces
to 1. -/
def pySanitize (text : List Char) : List Char :=
  squashRuns ' ' [' ']
    (squashRuns '\n' ['\n', '\n'] ((pyStrip text).filter (fun c => !isRemovable c)))

/-- The audio artifact produced for one chunk: real synthesized speech or
the ≈1s silent placeholder `_generate_silence_mp3` writes. -/
inductive AudioOut
  | real
  | silence
deriving DecidableEq, Repr

/-- Observable outcome of `generate_chunk_mp3` for one chunk: the artifact
written to the output path, whether the call signalled failure (returned
`False`), and how many provider calls were made. -/
structure GenOut where
  out : AudioOut
  failed : Bool
  provider_calls : Nat
deriving DecidableEq, Repr

/-- `generate_chunk_mp3(text, ...)` from `audiobook_app.py`, with the
external speech provider abstracted as a success oracle per attempt:
sanitize, exit early with silence on empty input, otherwise retry the
provider up to `maxRetries` times and fall back to silence. -/
def generate_chunk_mp3 (providerOk : Nat → Bool) (text : List Char) (maxRetries : Nat) :
    GenOut :=
  if pyStrip text = [] then ⟨.silence, false, 0⟩
  else if pyStrip (pySanitize text) = [] then ⟨.silence, false, 0⟩
  else
    match (List.range maxRetries).find? providerOk with
    | some k => ⟨.real, false, k + 1⟩
    | none => ⟨.silence, true, maxRetries⟩

/-- The job fields `_check_cancelled` reads, as seen at one checkpoint:
the explicit cancel flag, whether an email notification was registered,
and the seconds elapsed since the last progress poll. -/
structure CancelView where
  cancelled : Bool
  email_registered : Bool
  elapsed_since_poll : Rat
deriving DecidableEq, Repr

/-- `_check_cancelled` from `run_generation`: explicit cancel flag first;
the 60s liveness timeout is only consulted when no email notification has
been registered for the job. -/
def _check_cancelled (v : CancelView) : Bool :=
  if v.cancelled then true
  else if v.email_registered then false
  else if (60 : Rat) < v.elapsed_since_poll then true
  else false

/-- Job status values reachable from `run_generation`. -/
inductive JobStatus
  | generating
  | done
  | error
  | cancelled
deriving DecidableEq, Repr

/-- The per-entry loop of `run_generation`: before each plan entry the
cancellation check runs (the oracle `cv` gives the job fields it would
read at step `i`); then the chunk is synthesized with up to 3 attempts.
Returns (per-entry artifacts, failed-chunk count, cancelled?). -/
def runLoop (cv : Nat → CancelView) (pok : Nat → Nat → Bool) :
    Nat → List ChunkPlanEntry → List AudioOut × Nat × Bool
  | _, [] => ([], 0, false)
  | i, e :: rest =>
    if _check_cancelled (cv i) then ([], 0, true)
    else
      let g := generate_chunk_mp3 (pok i) e.text 3
      let r := runLoop cv pok (i + 1) rest
      (g.out :: r.1, (if g.failed then 1 else 0) + r.2.1, r.2.2)

/-- Result of a `run_generation` run: terminal status, failed-chunk count,
and the ordered per-chunk artifacts (assembly of the artifacts into final
files is external and not modelled). -/
structure RunResult where
  status : JobStatus
  failed_chunks : Nat
  outputs : List AudioOut
deriving DecidableEq, Repr

/-- `run_generation` from `audiobook_app.py`, common core of both output
modes: build the plan with `_plan_chunks`, process the entries in order
with cancellation checked before each one; a cancellation raises
`_CancelledError` and the job ends `cancelled`, otherwise it ends `done`. -/
def run_generation (cv : Nat → CancelView) (pok : Nat → Nat → Bool) (info : BookInfo) :
    RunResult :=
  let r := runLoop cv pok 0 (_plan_chunks info)
  if r.2.2 then ⟨.cancelled, r.2.1, r.1⟩ else ⟨.done, r.2.1, r.1⟩

/-- Python `str.lower()`, ASCII fragment. -/
def pyLower (l : List Char) : List Char :=
  l.map (fun c => if 'A' ≤ c ∧ c ≤ 'Z' then Char.ofNat (c.toNat + 32) else c)

/-- Python `pat in s`: substring occurrence. -/
def hasSubstr (pat : List Char) : List Char → Bool
  | [] => decide (pat = [])
  | a :: r => pat.isPrefixOf (a :: r) || hasSubstr pat r

/-- The multilingual `skip_titles` keyword list of `is_content_chapter`. -/
def skip_titles : List (List Char) :=
  ([ "indice", "indice generale", "indice dei contenuti", "indice analitico",
     "sommario", "table of contents", "contents", "toc",
     "table des matières", "sommaire", "índice", "índice general",
     "inhaltsverzeichnis", "inhalt",
     "copyright", "colophon", "note legali", "informazioni legali",
     "avviso legale", "legal notice", "all rights reserved",
     "copyright notice", "mentions légales", "aviso legal",
     "impressum",
     "frontespizio", "title page", "cover", "copertina",
     "half title", "halftitle", "page de titre",
     "dedica", "dedication", "dédicace", "dedicatoria",
     "epigrafe", "epigraph", "épigraphe",
     "bibliografia", "bibliography", "bibliographie", "bibliografía",
     "riferimenti bibliografici", "riferimenti", "references",
     "opere citate", "works cited", "fonti", "sources",
     "letture consigliate", "further reading", "suggested reading",
     "per approfondire", "lectures complémentaires",
     "note", "notes", "note al testo", "note a piè di pagina",
     "note finali", "endnotes", "footnotes", "anmerkungen",
     "note dell\x27autore", "note del traduttore", "note del curatore",
     "note bibliografiche", "note critiche",
     "glossario", "glossary", "glossaire", "glosario", "glossar",
     "indice analitico", "indice dei nomi", "indice dei luoghi",
     "indice delle opere", "indice tematico",
     "index", "name index", "subject index", "word index",
     "appendice", "appendix", "annexe", "apéndice", "anhang",
     "about the author", "sull\x27autore", "l\x27autore", "l\x27autrice",
     "biography", "biografia", "biographie",
     "about the translator", "nota del traduttore",
     "dello stesso autore", "also by", "du même auteur",
     "altre opere", "other books",
     "ringraziamenti", "acknowledgements", "acknowledgments",
     "remerciements", "agradecimientos", "danksagung",
     "errata", "errata corrige", "credits", "crediti",
     "photo credits", "image credits", "illustration credits" ] : List String).map
    String.toList

/-- Python `\w`, ASCII fragment: letters, digits, underscore. -/
def isWordCh (c : Char) : Bool := c.isAlphanum || c = '_'

/-- `re.search(r"\b\d{1,4}\s*$", line)`: the line ends (up to trailing
whitespace) in a run of 1–4 digits not preceded by a word character. -/
def endsPageNum (l : List Char) : Bool :=
  let r := l.reverse.dropWhile pySpace
  let digits := r.takeWhile Char.isDigit
  decide (1 ≤ digits.length) && decide (digits.length ≤ 4) &&
    (match r.dropWhile Char.isDigit with
     | [] => true
     | b :: _ => !isWordCh b)

/-- Does `\.\s*\.\s*\.\s*\d` match at the head of the list? -/
def dottedLeaderAt (l : List Char) : Bool :=
  match l with
  | '.' :: r1 =>
    match r1.dropWhile pySpace with
    | '.' :: r2 =>
      match r2.dropWhile pySpace with
      | '.' :: r3 =>
        match r3.dropWhile pySpace with
        | d :: _ => d.isDigit
        | [] => false
      | _ => false
    | _ => false
  | _ => false

/-- `re.search(r"\.\s*\.\s*\.\s*\d", line)`: a dotted leader followed by a
digit occurs somewhere in the line. -/
def hasDottedLeader : List Char → Bool
  | [] => false
  | a :: r => dottedLeaderAt (a :: r) || hasDottedLeader r

/-- `re.search(r"\b(19|20)\d{2}\b", line)` scanning with the previous
character kept for the leading word boundary. -/
def hasYearAux (prev : Option Char) : List Char → Bool
  | c1 :: c2 :: c3 :: c4 :: rest =>
    (((c1 = '1' && c2 = '9') || (c1 = '2' && c2 = '0')) && c3.isDigit && c4.isDigit &&
      (match prev with | none => true | some p => !isWordCh p) &&
      (match rest with | [] => true | n :: _ => !isWordCh n)) ||
    hasYearAux (some c1) (c2 :: c3 :: c4 :: rest)
  | _ => false

/-- `re.search(r"\b(19|20)\d{2}\b", line)`. -/
def hasYear (l : List Char) : Bool := hasYearAux none l

/-- `re.search(r"[,;]\s", line)`: a comma or semicolon followed by
whitespace. -/
def hasSepWs : List Char → Bool
  | a :: b :: r => ((a = ',' || a = ';') && pySpace b) || hasSepWs (b :: r)
  | _ => false

/-- The `colophon_signals` phrase list of `is_content_chapter`. -/
def colophon_signals : List (List Char) :=
  ([ "tutti i diritti", "all rights reserved", "tous droits",
     "prima edizione", "first published", "printed in",
     "stampato in", "finito di stampare", "tipografia",
     "isbn", "© ", "propriet", "vietata la riproduzione" ] : List String).map
    String.toList

/-- The stripped non-empty lines of the stripped text, as
`is_content_chapter` computes them. -/
def nonEmptyLines (clean : List Char) : List (List Char) :=
  ((splitCh '\n' clean).map pyStrip).filter (fun l => l ≠ [])

/-- Number of non-empty lines ending in a bare page number or containing
a dotted leader followed by a number (`page_ref_lines`). -/
def pageRefCount (clean : List Char) : Nat :=
  ((nonEmptyLines clean).filter (fun l => endsPageNum l || hasDottedLeader l)).length

/-- `is_content_chapter(text, title)` from `epub_to_tts.py`: heuristic
filter deciding whether a text block is genuine narrative content.  The
float ratio comparisons `>`&nbsp;0.7 / 0.4 / 0.5 are modelled as the exact
integer comparisons they compute on these operand ranges. -/
def is_content_chapter (text title : List Char) : Bool :=
  let clean := pyStrip text
  if clean.length < 100 then false
  else if pyWordCount clean < 30 then false
  else if skip_titles.any (fun s => hasSubstr s (pyLower title)) then false
  else
    let non_empty := nonEmptyLines clean
    if non_empty ≠ [] then
      let n_lines := non_empty.length
      let short_lines := (non_empty.filter (fun l => decide (l.length < 15))).length
      if decide (n_lines > 10) && decide (10 * short_lines > 7 * n_lines) then false
      else if decide (n_lines > 5) && decide (5 * pageRefCount clean > 2 * n_lines) then false
      else
        let bib := (non_empty.filter
          (fun l => hasYear l && hasSepWs l && decide (l.length > 40))).length
        if decide (n_lines > 5) && decide (2 * bib > n_lines) then false
        else if 2 ≤ (colophon_signals.filter
          (fun s => hasSubstr s (pyLower (clean.take 500)))).length then false
        else true
    else true

/-- The chapter-subset filter of `api_generate` (`audiobook_app.py`,
lines 1572–1582): keep the selected chapters, recompute `total_words` and
`estimated_duration_minutes` on a shallow copy, reject an empty
selection.  All other fields are carried over from the original. -/
def api_generate_filter (info : BookInfo) (selected : List Nat) : Option BookInfo :=
  let filtered := info.chapters.filter (fun ch => selected.contains ch.index)
  if filtered = [] then none
  else
    some { info with
      chapters := filtered,
      total_words := (filtered.map Chapter.word_count).sum,
      estimated_duration_minutes :=
        (((filtered.map Chapter.word_count).sum : Nat) : Rat) / 150 }

/-! ### Concrete inputs used by counterexamples and witnesses -/

/-- A paragraph slightly over the 2000-character budget whose first
delimiter is `". "` and whose second "sentence" still contains `"! "`. -/
def cexTextC1 : List Char :=
  'a' :: '.' :: ' ' :: (List.replicate 1998 'b' ++ '!' :: ' ' :: ['c'])

/-- A chapter body slightly over the budget whose second sentence consists
only of control characters, so its chunk sanitizes to empty. -/
def cexBodyC5 : List Char :=
  List.replicate 1990 'a' ++ '.' :: ' ' :: List.replicate 9 '\x01'

/-- A one-chapter book around `cexBodyC5`, with parser-consistent totals. -/
def cexBookC5 : BookInfo :=
  { title := ['B'], author := [], language := [], publisher := [], description := [],
    chapters := [mkChapter 1 ['T'] cexBodyC5],
    total_words := ([mkChapter 1 ['T'] cexBodyC5].map Chapter.word_count).sum,
    total_chars := ([mkChapter 1 ['T'] cexBodyC5].map Chapter.char_count).sum,
    estimated_duration_minutes :=
      (([mkChapter 1 ['T'] cexBodyC5].map Chapter.word_count).sum : Rat) / 150 }

/-- A two-chapter book with parser-consistent totals (`total_chars = 3`). -/
def cexBook7 : BookInfo :=
  { title := ['B'], author := [], language := [], publisher := [], description := [],
    chapters := [mkChapter 1 ['A'] ['x'], mkChapter 2 ['C'] ['y', 'y']],
    total_words := 2, total_chars := 3, estimated_duration_minutes := (2 : Rat) / 150 }

/-- A small two-chapter book used by witnesses. -/
def wBook : BookInfo :=
  { title := ['W'], author := [], language := [], publisher := [], description := [],
    chapters := [mkChapter 1 ['A'] ['x'], mkChapter 2 ['C'] ['y']],
    total_words := 2, total_chars := 2, estimated_duration_minutes := (2 : Rat) / 150 }

/-- Cancellation oracle of a live, never-cancelled job. -/
def cvNone : Nat → CancelView := fun _ => ⟨false, false, 0⟩

/-- Cancellation oracle of a job whose cancel flag is set from the start. -/
def cvCancelNow : Nat → CancelView := fun _ => ⟨true, false, 0⟩

/-- A speech provider that raises on every attempt. -/
def pokFail : Nat → Nat → Bool := fun _ _ => false

/-- Three long table-of-contents-like lines, each ending in a bare page
number: 33 words and 128 characters, but only 3 non-empty lines. -/
def cexText6 : List Char :=
  ("aaa bbb ccc ddd eee fff ggg hhh iii jjj 12\n" ++
   "aaa bbb ccc ddd eee fff ggg hhh iii jjj 12\n" ++
   "aaa bbb ccc ddd eee fff ggg hhh iii jjj 12").toList

/-- Six such lines: enough lines for the page-number-density rule. -/
def wText6 : List Char :=
  ("aaa bbb ccc ddd eee fff ggg hhh iii jjj 12\n" ++
   "aaa bbb ccc ddd eee fff ggg hhh iii jjj 12\n" ++
   "aaa bbb ccc ddd eee fff ggg hhh iii jjj 12\n" ++
   "aaa bbb ccc ddd eee fff ggg hhh iii jjj 12\n" ++
   "aaa bbb ccc ddd eee fff ggg hhh iii jjj 12\n" ++
   "aaa bbb ccc ddd eee fff ggg hhh iii jjj 12").toList

/-- A title matching no skip keyword. -/
def cexTitle6 : List Char := "zzz".toList

/-! ### Basic lemmas about whitespace stripping and scanning -/

theorem nonWs_append (a b : List Char) : nonWs (a ++ b) = nonWs a ++ nonWs b := by
  simp [nonWs, List.filter_append]

theorem nonWs_reverse (l : List Char) : nonWs l.reverse = (nonWs l).reverse := by
  simp [nonWs, List.filter_reverse]

theorem nonWs_dropWhile (l : List Char) : nonWs (l.dropWhile pySpace) = nonWs l := by
  induction l with
  | nil => rfl
  | cons a r ih =>
    by_cases ha : pySpace a
    · simpa [List.dropWhile_cons, ha, nonWs] using ih
    · simp [List.dropWhile_cons, ha]

theorem nonWs_pyStrip (l : List Char) : nonWs (pyStrip l) = nonWs l := by
  unfold pyStrip
  rw [nonWs_reverse, nonWs_dropWhile, nonWs_reverse, nonWs_dropWhile]
  simp

theorem length_pyStrip_le (l : List Char) : (pyStrip l).length ≤ l.length := by
  unfold pyStrip
  calc ((l.dropWhile pySpace).reverse.dropWhile pySpace).reverse.length
      = ((l.dropWhile pySpace).reverse.dropWhile pySpace).length := by simp
    _ ≤ (l.dropWhile pySpace).reverse.length :=
        ((List.dropWhile_suffix _).sublist).length_le
    _ = (l.dropWhile pySpace).length := by simp
    _ ≤ l.length := ((List.dropWhile_suffix _).sublist).length_le

theorem pyStrip_eq_nil_iff (l : List Char) : pyStrip l = [] ↔ nonWs l = [] := by
  constructor
  · intro h
    have := nonWs_pyStrip l
    rw [h] at this
    exact this.symm
  · intro h
    have hall : ∀ x ∈ l, pySpace x := by
      intro x hx
      by_contra hws
      have : x ∈ nonWs l := by
        simp [nonWs, List.mem_filter, hx, hws]
      simp [h] at this
    have h1 : l.dropWhile pySpace = [] := by
      rw [List.dropWhile_eq_nil_iff]
      intro x hx; exact hall x hx
    simp [pyStrip, h1]

theorem pyStrip_decomp (l : List Char) : ∃ u v, l = u ++ pyStrip l ++ v := by
  refine ⟨l.takeWhile pySpace,
    ((l.dropWhile pySpace).reverse.takeWhile pySpace).reverse, ?_⟩
  have h3 : l.dropWhile pySpace =
      pyStrip l ++ ((l.dropWhile pySpace).reverse.takeWhile pySpace).reverse := by
    calc l.dropWhile pySpace = (l.dropWhile pySpace).reverse.reverse := by
          rw [List.reverse_reverse]
      _ = ((l.dropWhile pySpace).reverse.takeWhile pySpace ++
            (l.dropWhile pySpace).reverse.dropWhile pySpace).reverse := by
          rw [List.takeWhile_append_dropWhile]
      _ = pyStrip l ++ ((l.dropWhile pySpace).reverse.takeWhile pySpace).reverse := by
          rw [List.reverse_append]; rfl
  rw [List.append_assoc, ← h3]
  exact (List.takeWhile_append_dropWhile pySpace l).symm

/-! ### Lemmas about the two-character separator scan `hasPair` -/

theorem hasPair_cons_mono (d a : Char) (l : List Char) (h : hasPair d l = true) :
    hasPair d (a :: l) = true := by
  match l with
  | [] => simp [hasPair] at h
  | b :: r => simp [hasPair, h]

theorem hasPair_cons_of_ne (d a : Char) (l : List Char) (h : a ≠ d) :
    hasPair d (a :: l) = hasPair d l := by
  match l with
  | [] => simp [hasPair]
  | b :: r => simp [hasPair, h]

theorem hasPair_append_left (d : Char) (t s : List Char) (h : hasPair d s = true) :
    hasPair d (t ++ s) = true := by
  induction t with
  | nil => simpa using h
  | cons a r ih => exact hasPair_cons_mono d a _ ih

theorem hasPair_append_right (d : Char) (t s : List Char) (h : hasPair d t = true) :
    hasPair d (t ++ s) = true := by
  match t with
  | [] => simp [hasPair] at h
  | [a] => simp [hasPair] at h
  | a :: b :: r =>
    simp only [hasPair, Bool.or_eq_true] at h
    rcases h with h | h
    · simp [List.cons_append, hasPair, h]
    · have := hasPair_append_right d (b :: r) s h
      simp only [List.cons_append] at this ⊢
      exact hasPair_cons_mono d a _ this

theorem hasPair_append_single (d e : Char) (p : List Char) (he : e ≠ ' ') :
    hasPair d (p ++ [e]) = hasPair d p := by
  match p with
  | [] => simp [hasPair]
  | [a] => simp [hasPair, he]
  | a :: b :: r =>
    have ih := hasPair_append_single d e (b :: r) he
    simp only [List.cons_append, List.append_eq, hasPair] at ih ⊢
    rw [ih]

theorem hasPair_pyStrip (d : Char) (l : List Char) (h : hasPair d (pyStrip l) = true) :
    hasPair d l = true := by
  obtain ⟨u, v, hl⟩ := pyStrip_decomp l
  rw [hl, List.append_assoc]
  exact hasPair_append_left d u _ (hasPair_append_right d _ v h)

theorem hasPair_eq_false_of_nonWs_nil (d : Char) (hd : pySpace d = false) (l : List Char)
    (h : nonWs l = []) : hasPair d l = false := by
  match l with
  | [] => rfl
  | [a] => rfl
  | a :: b :: r =>
    have ha : pySpace a = true := by
      by_contra hws
      have : a ∈ nonWs (a :: b :: r) := by
        simp [nonWs, List.mem_filter, hws]
      simp [h] at this
    have hr : nonWs (b :: r) = [] := by
      simp only [nonWs, List.filter] at h ⊢
      cases hf : (!pySpace a) with
      | false => rw [hf] at h; exact h
      | true => rw [hf] at h; simp at h
    have ih := hasPair_eq_false_of_nonWs_nil d hd (b :: r) hr
    simp only [hasPair, Bool.or_eq_false_iff]
    refine ⟨?_, ih⟩
    by_contra hab
    simp only [Bool.and_eq_true, decide_eq_true_eq, Bool.not_eq_false] at hab
    rw [hab.1] at ha
    rw [ha] at hd
    simp at hd

/-! ### Lemmas about the separator splits -/

theorem splitSeq_ne_nil (d : Char) (l : List Char) : splitSeq d l ≠ [] := by
  match l with
  | [] => simp [splitSeq]
  | [a] => simp [splitSeq]
  | a :: b :: r =>
    rw [splitSeq]
    split
    · simp
    · split <;> simp

theorem splitSeq_head_cases (d : Char) (l : List Char) (h : List Char)
    (t : List (List Char)) (he : splitSeq d l = h :: t) :
    h = [] ∨ h.head? = l.head? := by
  match l with
  | [] =>
    rw [splitSeq] at he
    injection he with h1 h2
    exact Or.inl h1.symm
  | [a] =>
    rw [splitSeq] at he
    injection he with h1 h2
    rw [← h1]
    exact Or.inr rfl
  | a :: b :: r =>
    rw [splitSeq] at he
    by_cases hab : a = d ∧ b = ' '
    · rw [if_pos hab] at he
      injection he with h1 h2
      exact Or.inl h1.symm
    · rw [if_neg hab] at he
      rcases hsp : splitSeq d (b :: r) with _ | ⟨h', t'⟩
      · exact absurd hsp (splitSeq_ne_nil d (b :: r))
      · rw [hsp] at he
        injection he with h1 h2
        rw [← h1]
        exact Or.inr rfl

theorem splitSeq_parts_no_pair (d : Char) (l : List Char) :
    ∀ p ∈ splitSeq d l, hasPair d p = false := by
  match l with
  | [] =>
    intro p hp
    simp [splitSeq] at hp
    subst hp; rfl
  | [a] =>
    intro p hp
    simp [splitSeq] at hp
    subst hp; rfl
  | a :: b :: r =>
    intro p hp
    rw [splitSeq] at hp
    by_cases hab : a = d ∧ b = ' '
    · rw [if_pos hab] at hp
      rcases List.mem_cons.mp hp with h1 | h1
      · subst h1; rfl
      · exact splitSeq_parts_no_pair d r p h1
    · rw [if_neg hab] at hp
      rcases hsp : splitSeq d (b :: r) with _ | ⟨h', t'⟩
      · exact absurd hsp (splitSeq_ne_nil d (b :: r))
      · rw [hsp] at hp
        rcases List.mem_cons.mp hp with h1 | h1
        · subst h1
          have hh' : hasPair d h' = false :=
            splitSeq_parts_no_pair d (b :: r) h' (hsp ▸ List.mem_cons_self _ _)
          rcases splitSeq_head_cases d (b :: r) h' t' hsp with he | he
          · subst he; rfl
          · cases h' with
            | nil => rfl
            | cons x xs =>
              have hxb : x = b := by simpa using he
              subst hxb
              simp only [hasPair, Bool.or_eq_false_iff]
              exact ⟨by simpa using hab, hh'⟩
        · exact splitSeq_parts_no_pair d (b :: r) p (hsp ▸ List.mem_cons_of_mem _ h1)

theorem splitSeq_parts_mono (d e : Char) (l : List Char) :
    ∀ p ∈ splitSeq d l, hasPair e p = true → hasPair e l = true := by
  match l with
  | [] =>
    intro p hp hpp
    simp [splitSeq] at hp
    subst hp
    simp [hasPair] at hpp
  | [a] =>
    intro p hp hpp
    simp [splitSeq] at hp
    subst hp
    simp [hasPair] at hpp
  | a :: b :: r =>
    intro p hp hpp
    rw [splitSeq] at hp
    by_cases hab : a = d ∧ b = ' '
    · rw [if_pos hab] at hp
      rcases List.mem_cons.mp hp with h1 | h1
      · subst h1; simp [hasPair] at hpp
      · exact hasPair_cons_mono e a _
          (hasPair_cons_mono e b _ (splitSeq_parts_mono d e r p h1 hpp))
    · rw [if_neg hab] at hp
      rcases hsp : splitSeq d (b :: r) with _ | ⟨h', t'⟩
      · exact absurd hsp (splitSeq_ne_nil d (b :: r))
      · rw [hsp] at hp
        rcases List.mem_cons.mp hp with h1 | h1
        · subst h1
          rcases splitSeq_head_cases d (b :: r) h' t' hsp with he | he
          · subst he; simp [hasPair] at hpp
          · cases h' with
            | nil => simp [hasPair] at hpp
            | cons x xs =>
              have hxb : x = b := by simpa using he
              simp only [hasPair, Bool.or_eq_true] at hpp
              rcases hpp with hpp | hpp
              · rw [hxb] at hpp
                simp [hasPair, hpp]
              · have hmem : (x :: xs) ∈ splitSeq d (b :: r) := hsp ▸ List.mem_cons_self _ _
                exact hasPair_cons_mono e a _
                  (splitSeq_parts_mono d e (b :: r) (x :: xs) hmem hpp)
        · exact hasPair_cons_mono e a _
            (splitSeq_parts_mono d e (b :: r) p (hsp ▸ List.mem_cons_of_mem _ h1) hpp)

theorem joinSep_splitSeq (d : Char) (l : List Char) :
    joinSep [d, ' '] (splitSeq d l) = l := by
  match l with
  | [] => rfl
  | [a] => rfl
  | a :: b :: r =>
    rw [splitSeq]
    by_cases hab : a = d ∧ b = ' '
    · rw [if_pos hab]
      have ih := joinSep_splitSeq d r
      rcases hsp : splitSeq d r with _ | ⟨h', t'⟩
      · exact absurd hsp (splitSeq_ne_nil d r)
      · rw [hsp] at ih
        rw [joinSep, ih, hab.1, hab.2]
        rfl
    · rw [if_neg hab]
      have ih := joinSep_splitSeq d (b :: r)
      rcases hsp : splitSeq d (b :: r) with _ | ⟨h', t'⟩
      · exact absurd hsp (splitSeq_ne_nil d (b :: r))
      · rw [hsp] at ih
        show joinSep [d, ' '] ((a :: h') :: t') = a :: b :: r
        cases t' with
        | nil =>
          simp only [joinSep] at ih ⊢
          rw [ih]
        | cons y t2 =>
          rw [joinSep] at ih ⊢
          simp only [List.cons_append, List.append_assoc] at ih ⊢
          rw [ih]

theorem splitSeq_of_no_pair (d : Char) (l : List Char) (h : hasPair d l = false) :
    splitSeq d l = [l] := by
  match l with
  | [] => rfl
  | [a] => rfl
  | a :: b :: r =>
    rw [splitSeq]
    simp only [hasPair, Bool.or_eq_false_iff] at h
    rw [if_neg (by simpa using h.1)]
    rw [splitSeq_of_no_pair d (b :: r) h.2]

theorem splitSeq_cons_of_ne (d a : Char) (l : List Char) (h : a ≠ d) :
    splitSeq d (a :: l) = (splitSeq d l).modifyHead (a :: ·) := by
  match l with
  | [] => simp [splitSeq, List.modifyHead]
  | b :: r =>
    rw [splitSeq, if_neg (fun hc => h hc.1)]
    rcases hsp : splitSeq d (b :: r) with _ | ⟨h', t'⟩
    · exact absurd hsp (splitSeq_ne_nil d (b :: r))
    · simp [List.modifyHead]

theorem splitSeq_pair_cons (d : Char) (r : List Char) :
    splitSeq d (d :: ' ' :: r) = [] :: splitSeq d r := by
  rw [splitSeq, if_pos ⟨rfl, rfl⟩]

theorem splitSeq_replicate_append (d c : Char) (h : c ≠ d) (s : List Char) (n : Nat) :
    splitSeq d (List.replicate n c ++ s) =
      (splitSeq d s).modifyHead (List.replicate n c ++ ·) := by
  induction n with
  | zero =>
    rcases hsp : splitSeq d s with _ | ⟨h', t'⟩
    · exact absurd hsp (splitSeq_ne_nil d s)
    · simpa [List.modifyHead] using hsp
  | succ n ih =>
    rw [List.replicate_succ, List.cons_append, splitSeq_cons_of_ne d c _ h, ih]
    rcases hsp : splitSeq d s with _ | ⟨h', t'⟩
    · exact absurd hsp (splitSeq_ne_nil d s)
    · simp [List.modifyHead, List.replicate_succ]

theorem splitCh_ne_nil (c : Char) (l : List Char) : splitCh c l ≠ [] := by
  match l with
  | [] => simp [splitCh]
  | a :: r =>
    rw [splitCh]
    split
    · simp
    · split <;> simp

theorem joinSep_splitCh (c : Char) (l : List Char) : joinSep [c] (splitCh c l) = l := by
  match l with
  | [] => rfl
  | a :: r =>
    rw [splitCh]
    by_cases hac : a = c
    · rw [if_pos hac]
      have ih := joinSep_splitCh c r
      rcases hsp : splitCh c r with _ | ⟨h', t'⟩
      · exact absurd hsp (splitCh_ne_nil c r)
      · rw [hsp] at ih
        rw [joinSep, ih, hac]
        rfl
    · rw [if_neg hac]
      have ih := joinSep_splitCh c r
      rcases hsp : splitCh c r with _ | ⟨h', t'⟩
      · exact absurd hsp (splitCh_ne_nil c r)
      · rw [hsp] at ih
        show joinSep [c] ((a :: h') :: t') = a :: r
        cases t' with
        | nil =>
          simp only [joinSep] at ih ⊢
          rw [ih]
        | cons y t2 =>
          rw [joinSep] at ih ⊢
          simp only [List.cons_append, List.append_assoc] at ih ⊢
          rw [ih]

theorem splitCh_cons_of_ne (c a : Char) (l : List Char) (h : a ≠ c) :
    splitCh c (a :: l) = (splitCh c l).modifyHead (a :: ·) := by
  rw [splitCh, if_neg h]
  rcases hsp : splitCh c l with _ | ⟨h', t'⟩
  · exact absurd hsp (splitCh_ne_nil c l)
  · simp [List.modifyHead]

theorem splitCh_sep_cons (c : Char) (l : List Char) :
    splitCh c (c :: l) = [] :: splitCh c l := by
  rw [splitCh, if_pos rfl]

theorem splitCh_of_not_mem (c : Char) (l : List Char) (h : ∀ a ∈ l, a ≠ c) :
    splitCh c l = [l] := by
  match l with
  | [] => rfl
  | a :: r =>
    rw [splitCh_cons_of_ne c a r (h a (List.mem_cons_self a r)),
      splitCh_of_not_mem c r (fun x hx => h x (List.mem_cons_of_mem a hx))]
    rfl

/-! ### Lemmas about sentence rebuilding and joins -/

theorem flatten_mkSentences (d : Char) (ps : List (List Char)) :
    (mkSentences d ps).flatten = joinSep [d] ps := by
  match ps with
  | [] => rfl
  | [x] => simp [mkSentences, joinSep]
  | x :: y :: t =>
    have ih := flatten_mkSentences d (y :: t)
    rw [mkSentences, joinSep]
    simp only [List.flatten_cons, ih, List.append_assoc]

theorem nonWs_joinSep (sep : List Char) (ps : List (List Char)) :
    nonWs (joinSep sep ps) = joinSep (nonWs sep) (ps.map nonWs) := by
  match ps with
  | [] => rfl
  | [x] => rfl
  | x :: y :: t =>
    have ih := nonWs_joinSep sep (y :: t)
    rw [joinSep]
    simp only [List.map_cons]
    rw [joinSep]
    rw [nonWs_append, nonWs_append, ih]
    simp only [List.map_cons]

theorem mem_mkSentences (d : Char) (ps : List (List Char)) :
    ∀ s ∈ mkSentences d ps, s ∈ ps ∨ ∃ p ∈ ps, s = p ++ [d] := by
  match ps with
  | [] => intro s hs; simp [mkSentences] at hs
  | [x] =>
    intro s hs
    simp [mkSentences] at hs
    exact Or.inl (by simp [hs])
  | x :: y :: t =>
    intro s hs
    rw [mkSentences] at hs
    rcases List.mem_cons.mp hs with h1 | h1
    · exact Or.inr ⟨x, List.mem_cons_self x _, h1⟩
    · rcases mem_mkSentences d (y :: t) s h1 with h2 | ⟨p, hp, he⟩
      · exact Or.inl (List.mem_cons_of_mem x h2)
      · exact Or.inr ⟨p, List.mem_cons_of_mem x hp, he⟩

/-! ### The first-delimiter search and the sentence list -/

theorem firstSep_cases (para : List Char) :
    (firstSep para = none ∧ hasPair '.' para = false) ∨
      ∃ d, firstSep para = some d ∧ pySpace d = false ∧ d ≠ ' ' ∧
        hasPair d para = true ∧ (d = '.' ∨ hasPair '.' para = false) := by
  unfold firstSep sepCandidates
  by_cases h1 : hasPair '.' para = true
  · refine Or.inr ⟨'.', ?_, by decide, by decide, h1, Or.inl rfl⟩
    simp [List.find?, h1]
  · rw [Bool.not_eq_true] at h1
    by_cases h2 : hasPair '!' para = true
    · refine Or.inr ⟨'!', ?_, by decide, by decide, h2, Or.inr h1⟩
      simp [List.find?, h1, h2]
    · rw [Bool.not_eq_true] at h2
      by_cases h3 : hasPair '?' para = true
      · refine Or.inr ⟨'?', ?_, by decide, by decide, h3, Or.inr h1⟩
        simp [List.find?, h1, h2, h3]
      · rw [Bool.not_eq_true] at h3
        by_cases h4 : hasPair ';' para = true
        · refine Or.inr ⟨';', ?_, by decide, by decide, h4, Or.inr h1⟩
          simp [List.find?, h1, h2, h3, h4]
        · rw [Bool.not_eq_true] at h4
          refine Or.inl ⟨?_, h1⟩
          simp [List.find?, h1, h2, h3, h4]

theorem sentencesOf_no_dot (para : List Char) :
    ∀ s ∈ sentencesOf para, hasPair '.' s = false := by
  unfold sentencesOf
  rcases firstSep_cases para with ⟨hn, h1⟩ | ⟨d, hfs, hws, hne, hhp, hdot⟩
  · rw [hn]
    intro s hs
    simp at hs
    subst hs
    exact h1
  · rw [hfs]
    intro s hs
    have key : ∀ p ∈ splitSeq d para, hasPair '.' p = false := by
      intro p hp
      rcases hdot with rfl | hdot
      · exact splitSeq_parts_no_pair '.' para p hp
      · by_contra hc
        rw [Bool.not_eq_false] at hc
        have hT := splitSeq_parts_mono d '.' para p hp hc
        rw [hT] at hdot
        exact absurd hdot (by decide)
    rcases mem_mkSentences d _ s hs with hmem | ⟨p, hp, he⟩
    · exact key s hmem
    · subst he
      rw [hasPair_append_single '.' d p hne]
      exact key p hp

theorem nonWs_flatten (L : List (List Char)) :
    nonWs L.flatten = (L.map nonWs).flatten := by
  induction L with
  | nil => rfl
  | cons x xs ih => simp [List.flatten_cons, nonWs_append, ih]

theorem joinSep_nil_sep (ps : List (List Char)) : joinSep [] ps = ps.flatten := by
  match ps with
  | [] => rfl
  | [x] => simp [joinSep]
  | x :: y :: t =>
    rw [joinSep, joinSep_nil_sep (y :: t)]
    simp

theorem nonWs_flatten_sentencesOf (para : List Char) :
    nonWs (sentencesOf para).flatten = nonWs para := by
  unfold sentencesOf
  rcases firstSep_cases para with ⟨hn, h1⟩ | ⟨d, hfs, hws, hne, hhp, hdot⟩
  · rw [hn]
    simp
  · rw [hfs]
    rw [flatten_mkSentences]
    have hd1 : nonWs [d] = [d] := by simp [nonWs, hws]
    have hd2 : nonWs [d, ' '] = [d] := by simp [nonWs, hws]; decide
    calc nonWs (joinSep [d] (splitSeq d para))
        = joinSep (nonWs [d]) ((splitSeq d para).map nonWs) := nonWs_joinSep _ _
      _ = joinSep (nonWs [d, ' ']) ((splitSeq d para).map nonWs) := by rw [hd1, hd2]
      _ = nonWs (joinSep [d, ' '] (splitSeq d para)) := (nonWs_joinSep _ _).symm
      _ = nonWs para := by rw [joinSep_splitSeq]

/-! ### Non-whitespace preservation through the chunking folds (claim C2) -/

theorem nonWs_nil : nonWs [] = [] := rfl

theorem nonWs_space_cons (l : List Char) : nonWs (' ' :: l) = nonWs l := by
  simp [nonWs, List.filter_cons]
  decide

theorem nonWs_newline (l : List Char) : nonWs (l ++ ['\n']) = nonWs l := by
  rw [nonWs_append]
  have h : nonWs ['\n'] = [] := by decide
  rw [h, List.append_nil]

theorem nonWs_of_pyStrip_nil (l : List Char) (h : pyStrip l = []) : nonWs l = [] := by
  rw [← nonWs_pyStrip, h]
  rfl

theorem sentStep_nonWs (maxC : Nat) (st : List (List Char) × List Char) (s : List Char) :
    nonWs ((sentStep maxC st s).1.flatten) ++ nonWs (sentStep maxC st s).2 =
      (nonWs (st.1.flatten) ++ nonWs st.2) ++ nonWs s := by
  obtain ⟨chunks, temp⟩ := st
  simp only [sentStep]
  by_cases h1 : temp.length + s.length + 1 > maxC
  · rw [if_pos h1]
    by_cases h2 : pyStrip temp ≠ []
    · rw [if_pos h2]
      rw [List.flatten_append]
      simp only [List.flatten_cons, List.flatten_nil, List.append_nil, nonWs_append,
        nonWs_pyStrip, List.append_assoc]
    · rw [if_neg h2]
      push_neg at h2
      simp [nonWs_append, nonWs_of_pyStrip_nil temp h2]
  · rw [if_neg h1]
    by_cases h2 : temp ≠ []
    · rw [if_pos h2]
      simp [nonWs_append, nonWs_space_cons, List.append_assoc]
    · rw [if_neg h2]
      push_neg at h2
      subst h2
      simp [nonWs_nil]

theorem sentFold_nonWs (maxC : Nat) (ss : List (List Char)) :
    ∀ st : List (List Char) × List Char,
      nonWs ((ss.foldl (sentStep maxC) st).1.flatten) ++
          nonWs (ss.foldl (sentStep maxC) st).2 =
        (nonWs (st.1.flatten) ++ nonWs st.2) ++ nonWs ss.flatten := by
  induction ss with
  | nil => intro st; simp [nonWs_nil]
  | cons s ss ih =>
    intro st
    rw [List.foldl_cons, ih (sentStep maxC st s), sentStep_nonWs]
    simp [nonWs_append, List.append_assoc]

theorem paraStep_nonWs (maxC : Nat) (st : List (List Char) × List Char) (p : List Char) :
    nonWs ((paraStep maxC st p).1.flatten) ++ nonWs (paraStep maxC st p).2 =
      (nonWs (st.1.flatten) ++ nonWs st.2) ++ nonWs p := by
  obtain ⟨chunks, cur⟩ := st
  simp only [paraStep]
  by_cases h0 : pyStrip p = []
  · rw [if_pos h0]
    have hnp : nonWs p = [] := nonWs_of_pyStrip_nil p h0
    by_cases h1 : cur ≠ []
    · rw [if_pos h1]
      simp [nonWs_newline, hnp]
    · rw [if_neg h1]
      simp [hnp]
  · rw [if_neg h0]
    by_cases h1 : cur.length + (pyStrip p).length + 1 > maxC
    · rw [if_pos h1]
      by_cases h2 : (pyStrip p).length > maxC
      · rw [if_pos h2]
        rw [sentFold_nonWs]
        rw [nonWs_flatten_sentencesOf]
        by_cases h3 : pyStrip cur ≠ []
        · rw [if_pos h3]
          rw [List.flatten_append]
          simp only [List.flatten_cons, List.flatten_nil, List.append_nil, nonWs_append,
            nonWs_pyStrip, nonWs_nil, List.append_assoc]
        · rw [if_neg h3]
          push_neg at h3
          simp [nonWs_append, nonWs_of_pyStrip_nil cur h3, nonWs_pyStrip, nonWs_nil]
      · rw [if_neg h2]
        by_cases h3 : pyStrip cur ≠ []
        · rw [if_pos h3]
          rw [List.flatten_append]
          simp only [List.flatten_cons, List.flatten_nil, List.append_nil, nonWs_append,
            nonWs_pyStrip, List.append_assoc]
        · rw [if_neg h3]
          push_neg at h3
          simp [nonWs_append, nonWs_of_pyStrip_nil cur h3, nonWs_pyStrip]
    · rw [if_neg h1]
      by_cases h2 : cur ≠ []
      · rw [if_pos h2]
        simp [nonWs_append, nonWs_space_cons, nonWs_pyStrip, List.append_assoc]
      · rw [if_neg h2]
        push_neg at h2
        subst h2
        simp [nonWs_nil, nonWs_pyStrip]

theorem paraFold_nonWs (maxC : Nat) (ps : List (List Char)) :
    ∀ st : List (List Char) × List Char,
      nonWs ((ps.foldl (paraStep maxC) st).1.flatten) ++
          nonWs (ps.foldl (paraStep maxC) st).2 =
        (nonWs (st.1.flatten) ++ nonWs st.2) ++ nonWs ps.flatten := by
  induction ps with
  | nil => intro st; simp [nonWs_nil]
  | cons p ps ih =>
    intro st
    rw [List.foldl_cons, ih (paraStep maxC st p), paraStep_nonWs]
    simp [nonWs_append, List.append_assoc]

theorem nonWs_flatten_splitCh_newline (text : List Char) :
    nonWs (splitCh '\n' text).flatten = nonWs text := by
  conv_rhs => rw [← joinSep_splitCh '\n' text]
  rw [nonWs_joinSep]
  have h1 : nonWs ['\n'] = [] := by decide
  rw [h1, joinSep_nil_sep, ← nonWs_flatten]

/-- Claim C2: concatenating in order all chunks returned by
`split_text_into_chunks` reproduces the input text's non-whitespace
content exactly — no non-whitespace character is dropped or duplicated and
their order is preserved; only whitespace (joining, stripping, blank-line
handling) differs. -/
theorem chunk_completeness (text : List Char) (maxChars : Nat) :
    nonWs ((split_text_into_chunks text maxChars).flatten) = nonWs text := by
  unfold split_text_into_chunks
  dsimp only
  have hfold := paraFold_nonWs maxChars (splitCh '\n' text) ([], [])
  simp only [List.flatten_nil, nonWs_nil, List.nil_append] at hfold
  rw [nonWs_flatten_splitCh_newline] at hfold
  set st := (splitCh '\n' text).foldl (paraStep maxChars) ([], []) with hst
  by_cases h2 : pyStrip st.2 ≠ []
  · rw [if_pos h2]
    have hne : st.1 ++ [pyStrip st.2] ≠ [] := by simp
    rw [if_neg (by simpa using hne)]
    rw [List.flatten_append]
    simp only [List.flatten_cons, List.flatten_nil, List.append_nil, nonWs_append]
    rw [nonWs_pyStrip]
    exact hfold
  · rw [if_neg h2]
    push_neg at h2
    have hnw : nonWs st.2 = [] := nonWs_of_pyStrip_nil _ h2
    rw [hnw, List.append_nil] at hfold
    by_cases h3 : st.1 = []
    · rw [if_pos h3]
      simp only [List.flatten_cons, List.flatten_nil, List.append_nil]
    · rw [if_neg h3]
      exact hfold

/-! ### The chunk budget invariant (claim C1) -/

theorem dropWhile_append_single (p : Char → Bool) (l : List Char) (z : Char) :
    List.dropWhile p (l ++ [z]) =
      if List.dropWhile p l = [] then List.dropWhile p [z]
      else List.dropWhile p l ++ [z] := by
  induction l with
  | nil => simp
  | cons a r ih =>
    by_cases ha : p a
    · simp only [List.cons_append, List.dropWhile_cons, ha, if_true, ih]
    · simp [List.dropWhile_cons, ha]

theorem pyStrip_append_ws (l : List Char) (z : Char) (hz : pySpace z = true) :
    pyStrip (l ++ [z]) = pyStrip l := by
  unfold pyStrip
  rw [dropWhile_append_single]
  by_cases h : List.dropWhile pySpace l = []
  · rw [if_pos h, h]
    simp [List.dropWhile_cons, hz]
  · rw [if_neg h]
    rw [List.reverse_append]
    simp [List.dropWhile_cons, hz]

theorem hasPair_pyStrip_false (d : Char) (l : List Char) (h : hasPair d l = false) :
    hasPair d (pyStrip l) = false := by
  by_contra hc
  rw [Bool.not_eq_false] at hc
  rw [hasPair_pyStrip d l hc] at h
  exact absurd h (by decide)

theorem sentFold_budget (maxC : Nat) (ss : List (List Char)) :
    ∀ st : List (List Char) × List Char,
      (∀ s ∈ ss, hasPair '.' s = false) →
      (∀ c ∈ st.1, c.length ≤ maxC ∨ hasPair '.' c = false) →
      ((pyStrip st.2).length ≤ maxC ∨ hasPair '.' (pyStrip st.2) = false) →
      (∀ c ∈ (ss.foldl (sentStep maxC) st).1,
          c.length ≤ maxC ∨ hasPair '.' c = false) ∧
        ((pyStrip (ss.foldl (sentStep maxC) st).2).length ≤ maxC ∨
          hasPair '.' (pyStrip (ss.foldl (sentStep maxC) st).2) = false) := by
  induction ss with
  | nil => intro st hss h1 h2; exact ⟨h1, h2⟩
  | cons s ss ih =>
    intro st hss h1 h2
    rw [List.foldl_cons]
    have hs : hasPair '.' s = false := hss s (List.mem_cons_self s ss)
    have hss' : ∀ x ∈ ss, hasPair '.' x = false :=
      fun x hx => hss x (List.mem_cons_of_mem s hx)
    refine ih (sentStep maxC st s) hss' ?_ ?_
    · intro c hc
      simp only [sentStep] at hc
      by_cases hb : st.2.length + s.length + 1 > maxC
      · rw [if_pos hb] at hc
        by_cases hp : pyStrip st.2 ≠ []
        · rw [if_pos hp] at hc
          rcases List.mem_append.mp hc with h | h
          · exact h1 c h
          · simp at h
            subst h
            exact h2
        · rw [if_neg hp] at hc
          exact h1 c hc
      · rw [if_neg hb] at hc
        exact h1 c hc
    · simp only [sentStep]
      by_cases hb : st.2.length + s.length + 1 > maxC
      · rw [if_pos hb]
        exact Or.inr (hasPair_pyStrip_false '.' s hs)
      · rw [if_neg hb]
        by_cases hp : st.2 ≠ []
        · rw [if_pos hp]
          dsimp only
          left
          have := length_pyStrip_le (st.2 ++ ' ' :: s)
          simp only [List.length_append, List.length_cons] at this
          omega
        · rw [if_neg hp]
          dsimp only
          left
          have := length_pyStrip_le s
          omega

theorem paraFold_budget (maxC : Nat) (ps : List (List Char)) :
    ∀ st : List (List Char) × List Char,
      (∀ c ∈ st.1, c.length ≤ maxC ∨ hasPair '.' c = false) →
      ((pyStrip st.2).length ≤ maxC ∨ hasPair '.' (pyStrip st.2) = false) →
      (∀ c ∈ (ps.foldl (paraStep maxC) st).1,
          c.length ≤ maxC ∨ hasPair '.' c = false) ∧
        ((pyStrip (ps.foldl (paraStep maxC) st).2).length ≤ maxC ∨
          hasPair '.' (pyStrip (ps.foldl (paraStep maxC) st).2) = false) := by
  induction ps with
  | nil => intro st h1 h2; exact ⟨h1, h2⟩
  | cons p ps ih =>
    intro st h1 h2
    rw [List.foldl_cons]
    refine ih (paraStep maxC st p) ?_ ?_
    · intro c hc
      simp only [paraStep] at hc
      by_cases h0 : pyStrip p = []
      · rw [if_pos h0] at hc
        exact h1 c hc
      · rw [if_neg h0] at hc
        by_cases hb : st.2.length + (pyStrip p).length + 1 > maxC
        · rw [if_pos hb] at hc
          have hch1 : ∀ c ∈ (if pyStrip st.2 ≠ [] then st.1 ++ [pyStrip st.2] else st.1),
              c.length ≤ maxC ∨ hasPair '.' c = false := by
            intro x hx
            by_cases hp : pyStrip st.2 ≠ []
            · rw [if_pos hp] at hx
              rcases List.mem_append.mp hx with h | h
              · exact h1 x h
              · simp at h
                subst h
                exact h2
            · rw [if_neg hp] at hx
              exact h1 x hx
          by_cases hlp : (pyStrip p).length > maxC
          · rw [if_pos hlp] at hc
            exact (sentFold_budget maxC (sentencesOf (pyStrip p)) _
              (sentencesOf_no_dot (pyStrip p)) hch1 (by left; simp [pyStrip])).1 c hc
          · rw [if_neg hlp] at hc
            exact hch1 c hc
        · rw [if_neg hb] at hc
          exact h1 c hc
    · simp only [paraStep]
      by_cases h0 : pyStrip p = []
      · rw [if_pos h0]
        by_cases hcur : st.2 ≠ []
        · rw [if_pos hcur]
          rw [pyStrip_append_ws st.2 '\n' (by decide)]
          exact h2
        · rw [if_neg hcur]
          exact h2
      · rw [if_neg h0]
        by_cases hb : st.2.length + (pyStrip p).length + 1 > maxC
        · rw [if_pos hb]
          by_cases hlp : (pyStrip p).length > maxC
          · rw [if_pos hlp]
            refine (sentFold_budget maxC (sentencesOf (pyStrip p)) _
              (sentencesOf_no_dot (pyStrip p)) ?_ (by left; simp [pyStrip])).2
            intro x hx
            by_cases hp : pyStrip st.2 ≠ []
            · rw [if_pos hp] at hx
              rcases List.mem_append.mp hx with h | h
              · exact h1 x h
              · simp at h
                subst h
                exact h2
            · rw [if_neg hp] at hx
              exact h1 x hx
          · rw [if_neg hlp]
            dsimp only
            left
            have := length_pyStrip_le (pyStrip p)
            omega
        · rw [if_neg hb]
          by_cases hcur : st.2 ≠ []
          · rw [if_pos hcur]
            dsimp only
            left
            have := length_pyStrip_le (st.2 ++ ' ' :: pyStrip p)
            simp only [List.length_append, List.length_cons] at this
            omega
          · rw [if_neg hcur]
            dsimp only
            left
            have := length_pyStrip_le (pyStrip p)
            omega

theorem split_chunk_budget_general (maxC : Nat) (text : List Char) (c : List Char)
    (hc : c ∈ split_text_into_chunks text maxC) :
    c.length ≤ maxC ∨ hasPair '.' c = false := by
  unfold split_text_into_chunks at hc
  dsimp only at hc
  have hinv := paraFold_budget maxC (splitCh '\n' text) ([], [])
    (by intro x hx; simp at hx) (by left; simp [pyStrip])
  set st := (splitCh '\n' text).foldl (paraStep maxC) ([], []) with hst
  by_cases h2 : pyStrip st.2 ≠ []
  · rw [if_pos h2] at hc
    have hne : st.1 ++ [pyStrip st.2] ≠ [] := by simp
    rw [if_neg hne] at hc
    rcases List.mem_append.mp hc with h | h
    · exact hinv.1 c h
    · simp at h
      subst h
      exact hinv.2
  · rw [if_neg h2] at hc
    push_neg at h2
    by_cases h3 : st.1 = []
    · rw [if_pos h3] at hc
      simp at hc
      subst hc
      right
      have hfold := paraFold_nonWs maxC (splitCh '\n' c) ([], [])
      simp only [List.flatten_nil, nonWs_nil, List.nil_append] at hfold
      rw [nonWs_flatten_splitCh_newline] at hfold
      rw [← hst, h3] at hfold
      simp only [List.flatten_nil, nonWs_nil, List.nil_append] at hfold
      rw [nonWs_of_pyStrip_nil st.2 h2] at hfold
      exact hasPair_eq_false_of_nonWs_nil '.' (by decide) c hfold.symm
    · rw [if_neg h3] at hc
      exact hinv.1 c hc

/-! ### Plan structure lemmas (claims C3 and C4) -/

theorem withIdx_length (n : Nat) (l : List α) : (withIdx n l).length = l.length := by
  induction l generalizing n with
  | nil => rfl
  | cons a r ih => simp [withIdx, ih]

theorem withIdx_map_fst (n : Nat) (l : List α) :
    (withIdx n l).map Prod.fst = List.range' n l.length := by
  induction l generalizing n with
  | nil => rfl
  | cons a r ih => simp [withIdx, List.range'_succ, ih]

theorem chapterEntries_chapter_index (ch : Chapter) :
    ∀ e ∈ chapterEntries ch, e.chapter_index = ch.index := by
  intro e he
  simp only [chapterEntries, List.mem_map] at he
  obtain ⟨p, _, he⟩ := he
  rw [← he]

theorem chapterEntries_map_chunk_index (ch : Chapter) :
    (chapterEntries ch).map ChunkPlanEntry.chunk_index =
      List.range (chapterEntries ch).length := by
  simp only [chapterEntries, List.map_map, List.length_map]
  have h1 : (ChunkPlanEntry.chunk_index ∘ fun p : Nat × List Char =>
      ({ chapter_index := ch.index, chapter_title := ch.title, chunk_index := p.1,
         chunks_in_chapter := (split_text_into_chunks
           (ch.title ++ '.' :: '\n' :: '\n' :: _strip_parenthetical ch.text)
           CHUNK_MAX_CHARS).length, text := p.2,
         chars := p.2.length } : ChunkPlanEntry)) = Prod.fst := by
    funext p
    rfl
  rw [h1, withIdx_map_fst, withIdx_length, List.range_eq_range']

theorem mem_flatten_plan (chs : List Chapter) (e : ChunkPlanEntry)
    (he : e ∈ (chs.map chapterEntries).flatten) : ∃ ch ∈ chs, e.chapter_index = ch.index := by
  rw [List.mem_flatten] at he
  obtain ⟨l, hl, hel⟩ := he
  rw [List.mem_map] at hl
  obtain ⟨ch, hch, hl⟩ := hl
  exact ⟨ch, hch, chapterEntries_chapter_index ch e (hl ▸ hel)⟩

theorem pairwise_le_of_all_eq (n : Nat) (l : List Nat) (h : ∀ x ∈ l, x = n) :
    List.Pairwise (· ≤ ·) l := by
  induction l with
  | nil => exact List.Pairwise.nil
  | cons a r ih =>
    refine List.pairwise_cons.mpr ⟨?_, ih (fun x hx => h x (List.mem_cons_of_mem a hx))⟩
    intro b hb
    rw [h a (List.mem_cons_self a r), h b (List.mem_cons_of_mem a hb)]

theorem plan_pairwise_le (chs : List Chapter)
    (h : List.Pairwise (· < ·) (chs.map Chapter.index)) :
    List.Pairwise (· ≤ ·)
      (((chs.map chapterEntries).flatten).map ChunkPlanEntry.chapter_index) := by
  induction chs with
  | nil => exact List.Pairwise.nil
  | cons ch rest ih =>
    simp only [List.map_cons, List.flatten_cons, List.map_append]
    rw [List.pairwise_append]
    simp only [List.map_cons, List.pairwise_cons] at h
    refine ⟨?_, ih h.2, ?_⟩
    · refine pairwise_le_of_all_eq ch.index _ ?_
      intro x hx
      rw [List.mem_map] at hx
      obtain ⟨e, he, hx⟩ := hx
      rw [← hx]
      exact chapterEntries_chapter_index ch e he
    · intro x hx y hy
      rw [List.mem_map] at hx hy
      obtain ⟨e, he, hx⟩ := hx
      obtain ⟨f, hf, hy⟩ := hy
      obtain ⟨ch', hch', hfi⟩ := mem_flatten_plan rest f hf
      have h1 : x = ch.index := hx ▸ chapterEntries_chapter_index ch e he
      have h2 : ch.index < ch'.index := h.1 ch'.index (List.mem_map_of_mem _ hch')
      rw [h1, ← hy, hfi]
      exact le_of_lt h2

theorem plan_filter_chunk_index (chs : List Chapter)
    (h : List.Pairwise (· < ·) (chs.map Chapter.index)) (n : Nat) :
    (((chs.map chapterEntries).flatten).filter
        (fun e => decide (e.chapter_index = n))).map ChunkPlanEntry.chunk_index =
      List.range ((((chs.map chapterEntries).flatten).filter
        (fun e => decide (e.chapter_index = n))).length) := by
  induction chs with
  | nil => simp
  | cons ch rest ih =>
    simp only [List.map_cons, List.flatten_cons, List.filter_append]
    simp only [List.map_cons, List.pairwise_cons] at h
    by_cases hn : ch.index = n
    · have hblock : (chapterEntries ch).filter
          (fun e => decide (e.chapter_index = n)) = chapterEntries ch := by
        rw [List.filter_eq_self]
        intro e he
        simp [chapterEntries_chapter_index ch e he, hn]
      have hrest : ((rest.map chapterEntries).flatten).filter
          (fun e => decide (e.chapter_index = n)) = [] := by
        rw [List.filter_eq_nil_iff]
        intro e he
        obtain ⟨ch', hch', hei⟩ := mem_flatten_plan rest e he
        have : ch.index < ch'.index := h.1 ch'.index (List.mem_map_of_mem _ hch')
        simp only [decide_eq_true_eq, hei]
        omega
      rw [hblock, hrest, List.append_nil]
      exact chapterEntries_map_chunk_index ch
    · have hblock : (chapterEntries ch).filter
          (fun e => decide (e.chapter_index = n)) = [] := by
        rw [List.filter_eq_nil_iff]
        intro e he
        simp [chapterEntries_chapter_index ch e he, hn]
      rw [hblock, List.nil_append]
      exact ih h.2

theorem split_never_nil (text : List Char) (maxC : Nat) :
    split_text_into_chunks text maxC ≠ [] := by
  unfold split_text_into_chunks
  dsimp only
  set st := (splitCh '\n' text).foldl (paraStep maxC) ([], [])
  by_cases h3 : (if pyStrip st.2 ≠ [] then st.1 ++ [pyStrip st.2] else st.1) = []
  · rw [if_pos h3]
    simp
  · rw [if_neg h3]
    exact h3

theorem chapterEntries_ne_nil (ch : Chapter) : chapterEntries ch ≠ [] := by
  unfold chapterEntries
  dsimp only
  intro h
  rw [List.map_eq_nil_iff] at h
  have h2 := split_never_nil
    (ch.title ++ '.' :: '\n' :: '\n' :: _strip_parenthetical ch.text) CHUNK_MAX_CHARS
  rcases hs : split_text_into_chunks
    (ch.title ++ '.' :: '\n' :: '\n' :: _strip_parenthetical ch.text) CHUNK_MAX_CHARS with
    _ | ⟨c, cs⟩
  · exact h2 hs
  · rw [hs] at h
    simp [withIdx] at h

/-- Claim C1 (amended): for the fixed budget `CHUNK_MAX_CHARS = 2000`,
every chunk returned by `split_text_into_chunks` has character count at
most 2000, except chunks consisting of a single sentence produced by
splitting the paragraph on the first delimiter found; such an over-budget
chunk contains no occurrence of `". "` (the highest-priority delimiter)
and is not split further, but it may still contain a lower-priority
delimiter (`"! "`, `"? "` or `"; "`). -/
theorem chunk_budget_amended (text c : List Char)
    (hc : c ∈ split_text_into_chunks text CHUNK_MAX_CHARS) :
    c.length ≤ CHUNK_MAX_CHARS ∨ hasPair '.' c = false :=
  split_chunk_budget_general CHUNK_MAX_CHARS text c hc

/-- Claim C3: for a `BookInfo` whose chapters carry strictly increasing
indices, the plan produced by `_plan_chunks` has a non-decreasing sequence
of `chapter_index` values, entries with the same `chapter_index` are
contiguous, and for each chapter index the `chunk_index` values are
exactly `0, 1, 2, …`. -/
theorem plan_ordering (info : BookInfo)
    (hinc : List.Chain' (· < ·) (info.chapters.map Chapter.index)) :
    List.Chain' (· ≤ ·) ((_plan_chunks info).map ChunkPlanEntry.chapter_index) ∧
    (∀ i j k : Fin (_plan_chunks info).length, i ≤ j → j ≤ k →
      ((_plan_chunks info).get i).chapter_index =
        ((_plan_chunks info).get k).chapter_index →
      ((_plan_chunks info).get j).chapter_index =
        ((_plan_chunks info).get k).chapter_index) ∧
    ∀ n, ((_plan_chunks info).filter
        (fun e => decide (e.chapter_index = n))).map ChunkPlanEntry.chunk_index =
      List.range (((_plan_chunks info).filter
        (fun e => decide (e.chapter_index = n))).length) := by
  have hpw : List.Pairwise (· < ·) (info.chapters.map Chapter.index) :=
    List.chain'_iff_pairwise.mp hinc
  have hle := plan_pairwise_le info.chapters hpw
  refine ⟨List.chain'_iff_pairwise.mpr hle, ?_, plan_filter_chunk_index info.chapters hpw⟩
  rw [List.pairwise_iff_getElem] at hle
  intro i j k hij hjk heq
  have hmono : ∀ a b : Fin (_plan_chunks info).length, a < b →
      ((_plan_chunks info).get a).chapter_index ≤
        ((_plan_chunks info).get b).chapter_index := by
    intro a b hab
    have ha2 : a.1 < ((_plan_chunks info).map ChunkPlanEntry.chapter_index).length := by
      rw [List.length_map]; exact a.2
    have hb2 : b.1 < ((_plan_chunks info).map ChunkPlanEntry.chapter_index).length := by
      rw [List.length_map]; exact b.2
    have h3 := hle a.1 b.1 ha2 hb2 hab
    simp only [List.getElem_map] at h3
    simpa [List.get_eq_getElem] using h3
  rcases lt_or_eq_of_le hij with h1 | h1
  · rcases lt_or_eq_of_le hjk with h2 | h2
    · have ha := hmono i j h1
      have hb := hmono j k h2
      omega
    · rw [h2]
  · rw [← h1, heq]

/-- Claim C4: `split_text_into_chunks` returns at least one chunk for
every non-empty input (the degenerate fallback emits the original text as
a single chunk), and `_plan_chunks` emits at least one entry for every
chapter with non-empty text. -/
theorem plan_never_empty (text : List Char) (info : BookInfo) (ht : text ≠ []) :
    split_text_into_chunks text CHUNK_MAX_CHARS ≠ [] ∧
      ∀ ch ∈ info.chapters, ch.text ≠ [] →
        ∃ e ∈ _plan_chunks info, e.chapter_index = ch.index := by
  refine ⟨split_never_nil text CHUNK_MAX_CHARS, ?_⟩
  intro ch hch _
  rcases he : chapterEntries ch with _ | ⟨e, es⟩
  · exact absurd he (chapterEntries_ne_nil ch)
  · refine ⟨e, ?_, chapterEntries_chapter_index ch e (he ▸ List.mem_cons_self e es)⟩
    unfold _plan_chunks
    rw [List.mem_flatten]
    exact ⟨chapterEntries ch, List.mem_map_of_mem _ hch, he ▸ List.mem_cons_self e es⟩

/-! ### Synthesis engine lemmas (claims C5, C8, C9) -/

/-- Claim C9: a plan entry whose text is empty after sanitization
(stripping, removal of control/zero-width characters, blank-line and
space collapsing) never reaches the speech provider: `generate_chunk_mp3`
makes zero provider calls, signals no failure, and directly produces the
silent placeholder. -/
theorem empty_chunk_skips_provider (providerOk : Nat → Bool) (text : List Char)
    (maxRetries : Nat) (h : pyStrip (pySanitize text) = []) :
    generate_chunk_mp3 providerOk text maxRetries =
      ⟨AudioOut.silence, false, 0⟩ := by
  unfold generate_chunk_mp3
  by_cases h1 : pyStrip text = []
  · rw [if_pos h1]
  · rw [if_neg h1, if_pos h]

theorem pySanitize_of_strip_nil (text : List Char) (h : pyStrip text = []) :
    pyStrip (pySanitize text) = [] := by
  rw [pySanitize, h]
  rfl

theorem runLoop_cancel (cv : Nat → CancelView) (pok : Nat → Nat → Bool) :
    ∀ (plan : List ChunkPlanEntry) (i k : Nat), k < plan.length →
      (∀ j, j < k → _check_cancelled (cv (i + j)) = false) →
      _check_cancelled (cv (i + k)) = true →
      (runLoop cv pok i plan).2.2 = true ∧ (runLoop cv pok i plan).1.length = k := by
  intro plan
  induction plan with
  | nil =>
    intro i k hk
    simp at hk
  | cons e rest ih =>
    intro i k hk hb hc
    rw [runLoop]
    by_cases h0 : _check_cancelled (cv i) = true
    · rw [if_pos h0]
      have hk0 : k = 0 := by
        by_contra hne
        have hx := hb 0 (Nat.pos_of_ne_zero hne)
        rw [Nat.add_zero] at hx
        rw [hx] at h0
        exact absurd h0 (by decide)
      subst hk0
      exact ⟨rfl, rfl⟩
    · rw [if_neg h0]
      have hk0 : k ≠ 0 := by
        intro hz
        subst hz
        rw [Nat.add_zero] at hc
        exact h0 hc
      obtain ⟨k', rfl⟩ : ∃ k', k = k' + 1 := ⟨k - 1, by omega⟩
      have harith : ∀ j, i + 1 + j = i + (j + 1) := by intro j; omega
      have hrec := ih (i + 1) k' (by simpa using hk)
        (fun j hj => by rw [harith j]; exact hb (j + 1) (by omega))
        (by rw [harith k']; exact hc)
      dsimp only
      exact ⟨hrec.1, by simp [hrec.2]⟩

/-- Claim C8: cancellation is requested exactly when the explicit cancel
flag is set or — only when no email notification is registered — more than
60 seconds have elapsed since the last liveness poll; when the first
checkpoint at which it is requested is entry `i`, no entry from `i`
onward is synthesized and the job's terminal status is `cancelled`. -/
theorem cancellation_stops_processing (cv : Nat → CancelView) (pok : Nat → Nat → Bool)
    (info : BookInfo) (i : Nat) (hi : i < (_plan_chunks info).length)
    (hbefore : ∀ j, j < i → _check_cancelled (cv j) = false)
    (hat : _check_cancelled (cv i) = true) :
    (∀ v : CancelView, _check_cancelled v =
      (v.cancelled || (!v.email_registered &&
        decide ((60 : Rat) < v.elapsed_since_poll)))) ∧
    (run_generation cv pok info).status = JobStatus.cancelled ∧
    (run_generation cv pok info).outputs.length = i := by
  have hloop := runLoop_cancel cv pok (_plan_chunks info) 0 i hi
    (fun j hj => by simpa using hbefore j hj) (by simpa using hat)
  refine ⟨?_, ?_, ?_⟩
  · intro v
    unfold _check_cancelled
    by_cases h1 : v.cancelled <;> by_cases h2 : v.email_registered <;>
      by_cases h3 : (60 : Rat) < v.elapsed_since_poll <;>
      simp [h1, h2, h3]
  · unfold run_generation
    dsimp only
    rw [if_pos hloop.1]
  · unfold run_generation
    dsimp only
    rw [if_pos hloop.1]
    exact hloop.2

theorem runLoop_allfail (cv : Nat → CancelView) (pok : Nat → Nat → Bool)
    (hcv : ∀ i, _check_cancelled (cv i) = false)
    (hpok : ∀ i a, pok i a = false) :
    ∀ (plan : List ChunkPlanEntry) (i : Nat),
      runLoop cv pok i plan =
        (plan.map (fun _ => AudioOut.silence),
         (plan.filter (fun e => decide (pyStrip (pySanitize e.text) ≠ []))).length,
         false) := by
  intro plan
  induction plan with
  | nil => intro i; rfl
  | cons e rest ih =>
    intro i
    rw [runLoop, if_neg (by simp [hcv i])]
    dsimp only
    rw [ih (i + 1)]
    have hfind : (List.range 3).find? (pok i) = none := by
      rw [List.find?_eq_none]
      intro x _
      simp [hpok i x]
    unfold generate_chunk_mp3
    by_cases h1 : pyStrip e.text = []
    · rw [if_pos h1]
      have h2 : pyStrip (pySanitize e.text) = [] := pySanitize_of_strip_nil e.text h1
      simp [List.filter_cons, h2]
    · rw [if_neg h1]
      by_cases h2 : pyStrip (pySanitize e.text) = []
      · rw [if_pos h2]
        simp [List.filter_cons, h2]
      · rw [if_neg h2]
        rw [hfind]
        simp [List.filter_cons, h2]
        omega

/-- Claim C5 (amended): if every provider call raises on every attempt
and no cancellation is requested, `run_generation` still terminates with
status `done` (never `error`), a silent placeholder is produced in place
of every chunk's audio, and `failed_chunks` equals the number of plan
entries whose text is non-empty after sanitization (an entry that
sanitizes to empty skips the provider and produces silence without
counting as failed, so the count equals the total only when every entry
sanitizes non-empty). -/
theorem fallback_never_blocks_amended (cv : Nat → CancelView) (pok : Nat → Nat → Bool)
    (info : BookInfo) (hprov : ∀ i a, pok i a = false)
    (hcv : ∀ i, _check_cancelled (cv i) = false) :
    (run_generation cv pok info).status = JobStatus.done ∧
    (run_generation cv pok info).outputs =
      (_plan_chunks info).map (fun _ => AudioOut.silence) ∧
    (run_generation cv pok info).failed_chunks =
      ((_plan_chunks info).filter
        (fun e => decide (pyStrip (pySanitize e.text) ≠ []))).length := by
  unfold run_generation
  dsimp only
  rw [runLoop_allfail cv pok hcv hprov (_plan_chunks info) 0]
  exact ⟨rfl, rfl, rfl⟩

/-! ### Content classifier (claim C6) and chapter filter (claim C7) -/

/-- Claim C6 (amended): for a text passing the minimum-length checks
(≥ 100 stripped characters, ≥ 30 words) whose title matches no skip
keyword, `is_content_chapter` returns `false` whenever the text has more
than 5 non-empty lines and more than 40% of them end in a bare page
number or contain a dotted leader followed by a number.  (The original
claim omitted the more-than-5-lines guard.) -/
theorem toc_density_amended (text title : List Char)
    (h100 : 100 ≤ (pyStrip text).length)
    (h30 : 30 ≤ pyWordCount (pyStrip text))
    (hkw : ∀ s ∈ skip_titles, hasSubstr s (pyLower title) = false)
    (hlines : 5 < (nonEmptyLines (pyStrip text)).length)
    (hratio : 2 * (nonEmptyLines (pyStrip text)).length <
      5 * pageRefCount (pyStrip text)) :
    is_content_chapter text title = false := by
  unfold is_content_chapter
  dsimp only
  rw [if_neg (by omega)]
  rw [if_neg (by omega)]
  have hany : skip_titles.any (fun s => hasSubstr s (pyLower title)) = false := by
    rw [List.any_eq_false]
    intro x hx
    rw [hkw x hx]
    exact Bool.false_ne_true
  rw [if_neg (by simp [hany])]
  have hne : nonEmptyLines (pyStrip text) ≠ [] := by
    intro h
    rw [h] at hlines
    simp at hlines
  rw [if_pos hne]
  by_cases hr1 : (decide ((nonEmptyLines (pyStrip text)).length > 10) &&
      decide (10 * ((nonEmptyLines (pyStrip text)).filter
        (fun l => decide (l.length < 15))).length >
        7 * (nonEmptyLines (pyStrip text)).length)) = true
  · rw [if_pos hr1]
  · rw [if_neg hr1]
    rw [if_pos (by simp only [Bool.and_eq_true, decide_eq_true_eq]; exact ⟨hlines, hratio⟩)]

/-- Claim C6 counterexample: a 3-line text meeting every hypothesis of
the claim — length and word minimums, no skip keyword, 100% of its
non-empty lines ending in a bare page number (well over 40%) — for which
`is_content_chapter` nevertheless returns `true`, because the code only
applies the page-number-density rule when there are more than 5 lines. -/
theorem toc_density_counterexample :
    100 ≤ (pyStrip cexText6).length ∧
    30 ≤ pyWordCount (pyStrip cexText6) ∧
    (∀ s ∈ skip_titles, hasSubstr s (pyLower cexTitle6) = false) ∧
    2 * (nonEmptyLines (pyStrip cexText6)).length <
      5 * pageRefCount (pyStrip cexText6) ∧
    is_content_chapter cexText6 cexTitle6 = true := by
  decide

/-- Claim C7 (amended): selecting a chapter subset builds a copy of the
`BookInfo` with the filtered chapter list and recomputes `total_words`
and `estimated_duration_minutes` over it, leaving the original value
untouched in every other field — in particular `total_chars` is *not*
recomputed and keeps the whole book's value.  (The original claim said
every aggregate including total characters is recomputed.) -/
theorem filter_recompute_amended (info : BookInfo) (selected : List Nat)
    (hne : info.chapters.filter (fun ch => selected.contains ch.index) ≠ []) :
    ∃ out, api_generate_filter info selected = some out ∧
      out.chapters = info.chapters.filter (fun ch => selected.contains ch.index) ∧
      out.total_words =
        ((info.chapters.filter (fun ch => selected.contains ch.index)).map
          Chapter.word_count).sum ∧
      out.estimated_duration_minutes =
        ((((info.chapters.filter (fun ch => selected.contains ch.index)).map
          Chapter.word_count).sum : Nat) : Rat) / 150 ∧
      out.total_chars = info.total_chars ∧
      out.title = info.title ∧ out.author = info.author ∧
      out.language = info.language := by
  unfold api_generate_filter
  dsimp only
  rw [if_neg hne]
  exact ⟨_, rfl, rfl, rfl, rfl, rfl, rfl, rfl, rfl⟩

/-- Claim C7 counterexample: on a two-chapter book with
`total_chars = 3`, selecting only chapter 1 (whose text has 1 character)
yields a filtered `BookInfo` whose `total_chars` is still 3, not the
recomputed sum 1 over the filtered chapters: `api_generate` does not
recompute the total character count. -/
theorem filter_totals_counterexample :
    (api_generate_filter cexBook7 [1]).map BookInfo.total_chars = some 3 ∧
    (api_generate_filter cexBook7 [1]).map
      (fun o => (o.chapters.map Chapter.char_count).sum) = some 1 ∧
    ¬ (3 : Nat) = 1 := by
  decide

/-! ### Symbolic evaluation toolkit for the over-budget counterexamples -/

theorem pyStrip_eq_self (l : List Char)
    (h1 : ∀ a, l.head? = some a → pySpace a = false)
    (h2 : ∀ a, l.getLast? = some a → pySpace a = false) : pyStrip l = l := by
  have hd : List.dropWhile pySpace l = l := by
    cases l with
    | nil => rfl
    | cons a r =>
      rw [List.dropWhile_cons, if_neg]
      rw [h1 a rfl]
      simp
  rw [pyStrip, hd]
  cases hrev : l.reverse with
  | nil =>
    have : l = [] := by simpa using congrArg List.reverse hrev
    subst this
    rfl
  | cons b t =>
    have hb : l.getLast? = some b := by
      rw [← List.head?_reverse, hrev]
      rfl
    rw [List.dropWhile_cons, if_neg (by rw [h2 b hb]; simp)]
    rw [← hrev, List.reverse_reverse]

theorem pyStrip_shape (a z : Char) (m : List Char)
    (ha : pySpace a = false) (hz : pySpace z = false) :
    pyStrip (a :: m ++ [z]) = a :: m ++ [z] := by
  apply pyStrip_eq_self
  · intro x hx
    rw [List.cons_append, List.head?_cons] at hx
    cases hx
    exact ha
  · intro x hx
    rw [List.getLast?_concat] at hx
    cases hx
    exact hz

theorem pyStrip_replicate (c : Char) (h : pySpace c = false) (n : Nat) :
    pyStrip (List.replicate n c) = List.replicate n c := by
  cases n with
  | zero => rfl
  | succ n =>
    apply pyStrip_eq_self
    · intro x hx
      rw [List.replicate_succ, List.head?_cons] at hx
      cases hx
      exact h
    · intro x hx
      rw [List.replicate_succ' .., List.getLast?_concat] at hx
      cases hx
      exact h

theorem hasPair_replicate_append (d c : Char) (hcd : c ≠ d) (s : List Char) :
    ∀ n, hasPair d (List.replicate n c ++ s) = hasPair d s := by
  intro n
  induction n with
  | zero => rfl
  | succ n ih =>
    rw [List.replicate_succ, List.cons_append, hasPair_cons_of_ne d c _ hcd, ih]

theorem hasPair_head_pair (d : Char) (r : List Char) :
    hasPair d (d :: ' ' :: r) = true := by
  simp [hasPair]

theorem splitCh_replicate_append (c b : Char) (hb : b ≠ c) (s : List Char) :
    ∀ n, splitCh c (List.replicate n b ++ s) =
      (splitCh c s).modifyHead (List.replicate n b ++ ·) := by
  intro n
  induction n with
  | zero =>
    rcases hsp : splitCh c s with _ | ⟨h', t'⟩
    · exact absurd hsp (splitCh_ne_nil c s)
    · simpa [List.modifyHead] using hsp
  | succ n ih =>
    rw [List.replicate_succ, List.cons_append, splitCh_cons_of_ne c b _ hb, ih]
    rcases hsp : splitCh c s with _ | ⟨h', t'⟩
    · exact absurd hsp (splitCh_ne_nil c s)
    · simp [List.modifyHead, List.replicate_succ]

theorem subBrAux_no_open (o c : Char) (l : List Char) (h : ∀ x ∈ l, x ≠ o) :
    subBrAux o c none l = l := by
  induction l with
  | nil => rfl
  | cons a r ih =>
    have ha : a ≠ o := h a (List.mem_cons_self a r)
    have ih2 := ih (fun x hx => h x (List.mem_cons_of_mem a hx))
    rw [subBrAux, if_neg ha]
    by_cases hc : a = c
    · rw [if_pos hc]
      rw [ih2]
    · rw [if_neg hc]
      rw [ih2]

theorem subBr_no_open (o c : Char) (l : List Char) (h : ∀ x ∈ l, x ≠ o) :
    subBr o c l = l := subBrAux_no_open o c l h

theorem stripLoop_fix (l : List Char) (h : subBr '[' ']' (subBr '(' ')' l) = l) :
    ∀ n, stripLoop n l = l := by
  intro n
  cases n with
  | zero => rfl
  | succ n =>
    rw [stripLoop]
    simp [h]

theorem collapseWsAux_all_nonspace (l : List Char) (h : ∀ x ∈ l, pySpace x = false) :
    ∀ b, collapseWsAux b l = l := by
  induction l with
  | nil => intro b; rfl
  | cons a r ih =>
    intro b
    rw [collapseWsAux, if_neg (by rw [h a (List.mem_cons_self a r)]; simp)]
    rw [ih (fun x hx => h x (List.mem_cons_of_mem a hx)) false]

theorem collapseWsAux_replicate (c : Char) (hc : pySpace c = false) (s : List Char) :
    ∀ n, collapseWsAux false (List.replicate n c ++ s) =
      List.replicate n c ++ collapseWsAux false s := by
  intro n
  induction n with
  | zero => rfl
  | succ n ih =>
    rw [List.replicate_succ, List.cons_append, collapseWsAux,
      if_neg (by rw [hc]; simp), ih]
    rfl

theorem fixPunctAux_nil_cons (a : Char) (r : List Char) (hs : pySpace a = false)
    (hp : isPunctCls a = false) :
    fixPunctAux [] (a :: r) = a :: fixPunctAux [] r := by
  rw [fixPunctAux, if_neg (by rw [hs]; simp), if_neg (by rw [hp]; simp)]
  rfl

theorem fixPunctAux_nil_replicate (c : Char) (hs : pySpace c = false)
    (hp : isPunctCls c = false) (s : List Char) :
    ∀ n, fixPunctAux [] (List.replicate n c ++ s) =
      List.replicate n c ++ fixPunctAux [] s := by
  intro n
  induction n with
  | zero => rfl
  | succ n ih =>
    rw [List.replicate_succ, List.cons_append, fixPunctAux_nil_cons c _ hs hp, ih]
    rfl

theorem squashAux_zero_no_c (c : Char) (repl : List Char) (l : List Char)
    (h : ∀ x ∈ l, x ≠ c) : squashAux c repl 0 l = l := by
  induction l with
  | nil => rfl
  | cons a r ih =>
    rw [squashAux, if_neg (h a (List.mem_cons_self a r))]
    rw [ih (fun x hx => h x (List.mem_cons_of_mem a hx))]
    rfl

/-! ### Evaluation of `split_text_into_chunks` on the C1 counterexample -/

theorem cexTextC1_no_newline : ∀ x ∈ cexTextC1, x ≠ '\n' := by
  intro x hx
  unfold cexTextC1 at hx
  simp only [List.mem_cons, List.mem_append, List.mem_replicate, List.mem_singleton,
    List.not_mem_nil, or_false] at hx
  rcases hx with rfl | rfl | rfl | ⟨_, rfl⟩ | rfl | rfl | rfl <;> decide

theorem cexTextC1_shape :
    cexTextC1 = ('a' :: ('.' :: ' ' :: (List.replicate 1998 'b' ++ ['!', ' ']))) ++ ['c'] := by
  unfold cexTextC1
  simp [List.append_assoc]

theorem cexTextC1_strip : pyStrip cexTextC1 = cexTextC1 := by
  rw [cexTextC1_shape]
  exact pyStrip_shape 'a' 'c' _ (by decide) (by decide)

theorem R1_shape :
    List.replicate 1998 'b' ++ '!' :: ' ' :: ['c'] =
      ('b' :: (List.replicate 1997 'b' ++ ['!', ' '])) ++ ['c'] := by
  rw [show (1998 : Nat) = 1997 + 1 from rfl, List.replicate_succ]
  simp [List.append_assoc]

theorem R1_strip :
    pyStrip (List.replicate 1998 'b' ++ '!' :: ' ' :: ['c']) =
      List.replicate 1998 'b' ++ '!' :: ' ' :: ['c'] := by
  rw [R1_shape]
  exact pyStrip_shape 'b' 'c' _ (by decide) (by decide)

theorem R1_length : (List.replicate 1998 'b' ++ '!' :: ' ' :: ['c']).length = 2001 := by
  simp

theorem cexTextC1_length : cexTextC1.length = 2004 := by
  unfold cexTextC1
  simp

theorem hasPair_dot_R1 :
    hasPair '.' (List.replicate 1998 'b' ++ '!' :: ' ' :: ['c']) = false := by
  rw [hasPair_replicate_append '.' 'b' (by decide)]
  decide

theorem hasPair_bang_R1 :
    hasPair '!' (List.replicate 1998 'b' ++ '!' :: ' ' :: ['c']) = true := by
  rw [hasPair_replicate_append '!' 'b' (by decide)]
  decide

theorem hasPair_dot_C1 : hasPair '.' cexTextC1 = true := by
  unfold cexTextC1
  rw [hasPair_cons_of_ne '.' 'a' _ (by decide)]
  exact hasPair_head_pair '.' _

theorem firstSep_C1 : firstSep cexTextC1 = some '.' := by
  unfold firstSep sepCandidates
  simp [List.find?, hasPair_dot_C1]

theorem splitSeq_C1 :
    splitSeq '.' cexTextC1 =
      [['a'], List.replicate 1998 'b' ++ '!' :: ' ' :: ['c']] := by
  unfold cexTextC1
  rw [splitSeq_cons_of_ne '.' 'a' _ (by decide), splitSeq_pair_cons,
    splitSeq_of_no_pair '.' _ hasPair_dot_R1]
  rfl

theorem sentencesOf_C1 :
    sentencesOf cexTextC1 =
      [['a', '.'], List.replicate 1998 'b' ++ '!' :: ' ' :: ['c']] := by
  unfold sentencesOf
  rw [firstSep_C1]
  show mkSentences '.' (splitSeq '.' cexTextC1) = _
  rw [splitSeq_C1]
  rfl

theorem split_result_eval (text : List Char) (maxC : Nat) (cs : List (List Char))
    (cur : List Char)
    (hfold : (splitCh '\n' text).foldl (paraStep maxC) ([], []) = (cs, cur))
    (hcur : pyStrip cur = cur) (hne : cur ≠ []) :
    split_text_into_chunks text maxC = cs ++ [cur] := by
  unfold split_text_into_chunks
  dsimp only
  rw [hfold]
  dsimp only
  rw [hcur]
  rw [if_pos hne]
  rw [if_neg (by simp)]

theorem split_eval_C1 :
    split_text_into_chunks cexTextC1 CHUNK_MAX_CHARS =
      [['a', '.'], List.replicate 1998 'b' ++ '!' :: ' ' :: ['c']] := by
  have hs1 : sentStep 2000 ([], []) ['a', '.'] = ([], ['a', '.']) := by
    unfold sentStep
    rw [if_neg (by decide)]
    rfl
  have hs2 : sentStep 2000 ([], ['a', '.']) (List.replicate 1998 'b' ++ '!' :: ' ' :: ['c']) =
      ([['a', '.']], List.replicate 1998 'b' ++ '!' :: ' ' :: ['c']) := by
    unfold sentStep
    rw [if_pos (by rw [R1_length]; decide)]
    rw [if_pos (by decide)]
    have hstr : pyStrip ['a', '.'] = ['a', '.'] := by decide
    rw [hstr]
    rfl
  have hps : paraStep 2000 ([], []) cexTextC1 =
      ([['a', '.']], List.replicate 1998 'b' ++ '!' :: ' ' :: ['c']) := by
    unfold paraStep
    dsimp only
    rw [cexTextC1_strip]
    rw [if_neg (by unfold cexTextC1; simp)]
    rw [if_pos (by rw [cexTextC1_length]; decide)]
    rw [if_pos (by rw [cexTextC1_length]; decide)]
    rw [if_neg (by decide)]
    rw [sentencesOf_C1, List.foldl_cons, hs1, List.foldl_cons, hs2, List.foldl_nil]
  have hfold : (splitCh '\n' cexTextC1).foldl (paraStep 2000) ([], []) =
      ([['a', '.']], List.replicate 1998 'b' ++ '!' :: ' ' :: ['c']) := by
    rw [splitCh_of_not_mem '\n' cexTextC1 cexTextC1_no_newline]
    rw [List.foldl_cons, hps, List.foldl_nil]
  have := split_result_eval cexTextC1 2000 [['a', '.']]
    (List.replicate 1998 'b' ++ '!' :: ' ' :: ['c']) hfold R1_strip (by simp)
  rw [show CHUNK_MAX_CHARS = 2000 from rfl, this]
  rfl

/-- Claim C1 counterexample: with the fixed budget 2000, the input
`cexTextC1` (= `"a. "` followed by 1998 `'b'`s, `"! "` and `"c"`) yields a
chunk of 2001 characters that does contain a sentence delimiter (`"! "`):
an over-budget chunk is not necessarily a sentence free of delimiters, so
the claim as stated is false. -/
theorem chunk_budget_counterexample :
    (List.replicate 1998 'b' ++ '!' :: ' ' :: ['c']) ∈
        split_text_into_chunks cexTextC1 CHUNK_MAX_CHARS ∧
    2000 < (List.replicate 1998 'b' ++ '!' :: ' ' :: ['c']).length ∧
    hasPair '!' (List.replicate 1998 'b' ++ '!' :: ' ' :: ['c']) = true ∧
    CHUNK_MAX_CHARS = 2000 := by
  refine ⟨?_, ?_, hasPair_bang_R1, rfl⟩
  · rw [split_eval_C1]
    simp
  · rw [R1_length]
    decide

/-! ### Evaluation of the plan and the run loop on the C5 counterexample -/

theorem cexBodyC5_shape :
    cexBodyC5 = ('a' :: (List.replicate 1989 'a' ++ '.' :: ' ' :: List.replicate 8 '\x01')) ++
      ['\x01'] := by
  unfold cexBodyC5
  rw [show (1990 : Nat) = 1989 + 1 from rfl, List.replicate_succ,
    show (9 : Nat) = 8 + 1 from rfl, List.replicate_succ' ..]
  simp [List.append_assoc]

theorem cexBodyC5_strip : pyStrip cexBodyC5 = cexBodyC5 := by
  rw [cexBodyC5_shape]
  exact pyStrip_shape 'a' '\x01' _ (by decide) (by decide)

theorem cexBodyC5_length : cexBodyC5.length = 2001 := by
  unfold cexBodyC5
  simp

theorem cexBodyC5_mem (x : Char) (hx : x ∈ cexBodyC5) :
    x = 'a' ∨ x = '.' ∨ x = ' ' ∨ x = '\x01' := by
  unfold cexBodyC5 at hx
  simp only [List.mem_append, List.mem_cons, List.mem_replicate] at hx
  rcases hx with ⟨_, rfl⟩ | rfl | rfl | ⟨_, rfl⟩ <;> simp

theorem fixPunctAux_cons (pending : List Char) (a : Char) (r : List Char) :
    fixPunctAux pending (a :: r) =
      if pySpace a then fixPunctAux (pending ++ [a]) r
      else if isPunctCls a then a :: fixPunctAux [] r
      else pending ++ a :: fixPunctAux [] r := rfl

theorem fixPunctAux_nil_all_plain (l : List Char)
    (h : ∀ x ∈ l, pySpace x = false ∧ isPunctCls x = false) :
    fixPunctAux [] l = l := by
  induction l with
  | nil => rfl
  | cons a r ih =>
    obtain ⟨h1, h2⟩ := h a (List.mem_cons_self a r)
    rw [fixPunctAux_cons, if_neg (by rw [h1]; simp), if_neg (by rw [h2]; simp)]
    rw [ih (fun x hx => h x (List.mem_cons_of_mem a hx))]
    rfl

theorem strip_paren_eval_C5 : _strip_parenthetical cexBodyC5 = cexBodyC5 := by
  unfold _strip_parenthetical
  have hfix : subBr '[' ']' (subBr '(' ')' cexBodyC5) = cexBodyC5 := by
    rw [subBr_no_open '(' ')' cexBodyC5
      (fun x hx => by rcases cexBodyC5_mem x hx with rfl | rfl | rfl | rfl <;> decide)]
    exact subBr_no_open '[' ']' cexBodyC5
      (fun x hx => by rcases cexBodyC5_mem x hx with rfl | rfl | rfl | rfl <;> decide)
  rw [stripLoop_fix cexBodyC5 hfix]
  have hcw : collapseWs cexBodyC5 = cexBodyC5 := by
    unfold collapseWs
    unfold cexBodyC5
    rw [collapseWsAux_replicate 'a' (by decide)]
    rw [collapseWsAux, if_neg (by decide)]
    rw [collapseWsAux, if_pos (by decide)]
    rw [collapseWsAux_all_nonspace (List.replicate 9 '\x01')
      (fun x hx => by rw [List.eq_of_mem_replicate hx]; decide) true]
    rfl
  rw [hcw]
  have hfp : fixPunct cexBodyC5 = cexBodyC5 := by
    unfold fixPunct
    unfold cexBodyC5
    rw [fixPunctAux_nil_replicate 'a' (by decide) (by decide)]
    rw [fixPunctAux_cons, if_neg (by decide), if_pos (by decide)]
    rw [fixPunctAux_cons, if_pos (by decide)]
    rw [show List.replicate 9 '\x01' = '\x01' :: List.replicate 8 '\x01' from rfl]
    rw [fixPunctAux_cons, if_neg (by decide), if_neg (by decide)]
    rw [fixPunctAux_nil_all_plain (List.replicate 8 '\x01')
      (fun x hx => by rw [List.eq_of_mem_replicate hx]; exact ⟨by decide, by decide⟩)]
    rfl
  rw [hfp]
  exact cexBodyC5_strip

theorem cexBodyC5_no_newline : ∀ x ∈ cexBodyC5, x ≠ '\n' := by
  intro x hx
  rcases cexBodyC5_mem x hx with rfl | rfl | rfl | rfl <;> decide

theorem splitCh_full_C5 :
    splitCh '\n' ('T' :: '.' :: '\n' :: '\n' :: cexBodyC5) =
      [['T', '.'], [], cexBodyC5] := by
  rw [splitCh_cons_of_ne '\n' 'T' _ (by decide), splitCh_cons_of_ne '\n' '.' _ (by decide),
    splitCh_sep_cons, splitCh_sep_cons, splitCh_of_not_mem '\n' cexBodyC5 cexBodyC5_no_newline]
  rfl

theorem hasPair_dot_C5 : hasPair '.' cexBodyC5 = true := by
  unfold cexBodyC5
  rw [hasPair_replicate_append '.' 'a' (by decide)]
  exact hasPair_head_pair '.' _

theorem firstSep_C5 : firstSep cexBodyC5 = some '.' := by
  unfold firstSep sepCandidates
  simp [List.find?, hasPair_dot_C5]

theorem splitSeq_C5 :
    splitSeq '.' cexBodyC5 =
      [List.replicate 1990 'a', List.replicate 9 '\x01'] := by
  unfold cexBodyC5
  rw [splitSeq_replicate_append '.' 'a' (by decide), splitSeq_pair_cons,
    splitSeq_of_no_pair '.' _ (by decide)]
  simp [List.modifyHead]

theorem sentencesOf_C5 :
    sentencesOf cexBodyC5 =
      [List.replicate 1990 'a' ++ ['.'], List.replicate 9 '\x01'] := by
  unfold sentencesOf
  rw [firstSep_C5]
  show mkSentences '.' (splitSeq '.' cexBodyC5) = _
  rw [splitSeq_C5]
  rfl

theorem s1C5_shape :
    List.replicate 1990 'a' ++ ['.'] = ('a' :: List.replicate 1989 'a') ++ ['.'] := by
  rw [show (1990 : Nat) = 1989 + 1 from rfl, List.replicate_succ]

theorem s1C5_strip :
    pyStrip (List.replicate 1990 'a' ++ ['.']) = List.replicate 1990 'a' ++ ['.'] := by
  rw [s1C5_shape]
  exact pyStrip_shape 'a' '.' _ (by decide) (by decide)

theorem s1C5_length : (List.replicate 1990 'a' ++ ['.']).length = 1991 := by
  simp

theorem split_eval_C5 :
    split_text_into_chunks ('T' :: '.' :: '\n' :: '\n' :: cexBodyC5) CHUNK_MAX_CHARS =
      [['T', '.'], List.replicate 1990 'a' ++ ['.'], List.replicate 9 '\x01'] := by
  have hp1 : paraStep 2000 ([], []) ['T', '.'] = ([], ['T', '.']) := by decide
  have hp2 : paraStep 2000 ([], ['T', '.']) [] = ([], ['T', '.', '\n']) := by decide
  have hs1 : sentStep 2000 ([['T', '.']], []) (List.replicate 1990 'a' ++ ['.']) =
      ([['T', '.']], List.replicate 1990 'a' ++ ['.']) := by
    unfold sentStep
    rw [if_neg (by rw [s1C5_length]; decide)]
    rfl
  have hs2 : sentStep 2000 ([['T', '.']], List.replicate 1990 'a' ++ ['.'])
      (List.replicate 9 '\x01') =
      ([['T', '.'], List.replicate 1990 'a' ++ ['.']], List.replicate 9 '\x01') := by
    unfold sentStep
    rw [if_pos (by rw [s1C5_length]; decide)]
    rw [if_pos (by rw [s1C5_strip]; simp)]
    rw [s1C5_strip]
    rfl
  have hp3 : paraStep 2000 ([], ['T', '.', '\n']) cexBodyC5 =
      ([['T', '.'], List.replicate 1990 'a' ++ ['.']], List.replicate 9 '\x01') := by
    unfold paraStep
    dsimp only
    rw [cexBodyC5_strip]
    rw [if_neg (by rw [cexBodyC5_shape]; simp)]
    rw [if_pos (by rw [cexBodyC5_length]; decide)]
    rw [if_pos (by rw [cexBodyC5_length]; decide)]
    rw [if_pos (by decide)]
    rw [show pyStrip ['T', '.', '\n'] = ['T', '.'] from by decide]
    simp only [List.nil_append]
    rw [sentencesOf_C5, List.foldl_cons, hs1, List.foldl_cons, hs2, List.foldl_nil]
  have hfold : (splitCh '\n' ('T' :: '.' :: '\n' :: '\n' :: cexBodyC5)).foldl
      (paraStep 2000) ([], []) =
      ([['T', '.'], List.replicate 1990 'a' ++ ['.']], List.replicate 9 '\x01') := by
    rw [splitCh_full_C5, List.foldl_cons, hp1, List.foldl_cons, hp2, List.foldl_cons, hp3,
      List.foldl_nil]
  have := split_result_eval ('T' :: '.' :: '\n' :: '\n' :: cexBodyC5) 2000
    [['T', '.'], List.replicate 1990 'a' ++ ['.']] (List.replicate 9 '\x01') hfold
    (pyStrip_replicate '\x01' (by decide) 9) (by simp)
  rw [show CHUNK_MAX_CHARS = 2000 from rfl, this]
  rfl

theorem plan_eval_C5 :
    _plan_chunks cexBookC5 =
      [⟨1, ['T'], 0, 3, ['T', '.'], 2⟩,
       ⟨1, ['T'], 1, 3, List.replicate 1990 'a' ++ ['.'], 1991⟩,
       ⟨1, ['T'], 2, 3, List.replicate 9 '\x01', 9⟩] := by
  unfold _plan_chunks cexBookC5
  simp only [List.map_cons, List.map_nil, List.flatten_cons, List.flatten_nil,
    List.append_nil]
  unfold chapterEntries
  dsimp only [mkChapter]
  rw [strip_paren_eval_C5]
  rw [show (['T'] ++ '.' :: '\n' :: '\n' :: cexBodyC5) =
    ('T' :: '.' :: '\n' :: '\n' :: cexBodyC5) from rfl]
  rw [split_eval_C5]
  simp only [withIdx, List.map_cons, List.map_nil, List.length_cons,
    List.length_nil, List.length_append, List.length_replicate]

theorem sanitize_ne_nil_s1C5 :
    pyStrip (pySanitize (List.replicate 1990 'a' ++ ['.'])) ≠ [] := by
  unfold pySanitize
  rw [s1C5_strip]
  have hfil : (List.replicate 1990 'a' ++ ['.']).filter (fun c => !isRemovable c) =
      List.replicate 1990 'a' ++ ['.'] := by
    rw [List.filter_eq_self]
    intro x hx
    simp only [List.mem_append, List.mem_replicate, List.mem_singleton] at hx
    rcases hx with ⟨_, rfl⟩ | rfl <;> decide
  rw [hfil]
  have hmem : ∀ x ∈ List.replicate 1990 'a' ++ ['.'], ¬ x = '\n' ∧ ¬ x = ' ' := by
    intro x hx
    simp only [List.mem_append, List.mem_replicate, List.mem_singleton] at hx
    rcases hx with ⟨_, rfl⟩ | rfl <;> exact ⟨by decide, by decide⟩
  rw [show squashRuns '\n' ['\n', '\n'] (List.replicate 1990 'a' ++ ['.']) =
      squashAux '\n' ['\n', '\n'] 0 (List.replicate 1990 'a' ++ ['.']) from rfl]
  rw [squashAux_zero_no_c _ _ _ (fun x hx => (hmem x hx).1)]
  rw [show squashRuns ' ' [' '] (List.replicate 1990 'a' ++ ['.']) =
      squashAux ' ' [' '] 0 (List.replicate 1990 'a' ++ ['.']) from rfl]
  rw [squashAux_zero_no_c _ _ _ (fun x hx => (hmem x hx).2)]
  rw [s1C5_strip]
  simp

theorem sanitize_nil_R2C5 :
    pyStrip (pySanitize (List.replicate 9 '\x01')) = [] := by
  unfold pySanitize
  rw [pyStrip_replicate '\x01' (by decide) 9]
  have hfil : (List.replicate 9 '\x01').filter (fun c => !isRemovable c) = [] := by
    rw [List.filter_eq_nil_iff]
    intro x hx
    rw [List.eq_of_mem_replicate hx]
    decide
  rw [hfil]
  rfl

theorem sanitize_T_dot : pyStrip (pySanitize ['T', '.']) ≠ [] := by decide

theorem failed_filter_eval_C5 :
    (List.filter (fun e => decide (pyStrip (pySanitize e.text) ≠ []))
      (_plan_chunks cexBookC5)).length = 2 := by
  rw [plan_eval_C5]
  rw [List.filter_cons]
  rw [if_pos (by simp only [decide_eq_true_eq]; exact sanitize_T_dot)]
  rw [List.filter_cons]
  rw [if_pos (by simp only [decide_eq_true_eq]; exact sanitize_ne_nil_s1C5)]
  rw [List.filter_cons]
  rw [if_neg (by
    simp only [decide_eq_true_eq, ne_eq, Decidable.not_not]
    exact sanitize_nil_R2C5)]
  rfl

theorem run_generation_allfail (cv : Nat → CancelView) (pok : Nat → Nat → Bool)
    (hcv : ∀ i, _check_cancelled (cv i) = false)
    (hpok : ∀ i a, pok i a = false) (info : BookInfo) :
    run_generation cv pok info =
      ⟨JobStatus.done,
       ((_plan_chunks info).filter
         (fun e => decide (pyStrip (pySanitize e.text) ≠ []))).length,
       (_plan_chunks info).map (fun _ => AudioOut.silence)⟩ := by
  unfold run_generation
  dsimp only
  rw [runLoop_allfail cv pok hcv hpok]
  rfl


/-- Claim C5 counterexample: on the one-chapter book `cexBookC5`, with a
provider that raises on every attempt and no cancellation, the run does
end `done` — but `failed_chunks` is 2 while the plan has 3 entries. The
third chunk consists only of control characters, sanitizes to empty, and
yields silence without being counted as failed, so the claim that
`failed_chunks` then equals the total number of plan entries is false. -/
theorem fallback_counterexample :
    (∀ i a, pokFail i a = false) ∧
    (∀ i, _check_cancelled (cvNone i) = false) ∧
    (run_generation cvNone pokFail cexBookC5).status = JobStatus.done ∧
    (run_generation cvNone pokFail cexBookC5).failed_chunks = 2 ∧
    (_plan_chunks cexBookC5).length = 3 ∧ ¬ (2 : Nat) = 3 := by
  have hcv : ∀ i, _check_cancelled (cvNone i) = false := fun i => rfl
  have hpok : ∀ i a, pokFail i a = false := fun i a => rfl
  have hrg := run_generation_allfail cvNone pokFail hcv hpok cexBookC5
  have h2 : (run_generation cvNone pokFail cexBookC5).failed_chunks =
      (List.filter (fun e => decide (pyStrip (pySanitize e.text) ≠ []))
        (_plan_chunks cexBookC5)).length := by
    rw [hrg]
  have h3 : (_plan_chunks cexBookC5).length = 3 := by
    rw [plan_eval_C5]
    rfl
  refine ⟨hpok, hcv, ?_, h2.trans failed_filter_eval_C5, h3, by decide⟩
  rw [hrg]

theorem subBrAux_sublist (o c : Char) :
    ∀ l : List Char,
      (subBrAux o c none l).Sublist l ∧
      ∀ content, (subBrAux o c (some content) l).Sublist (o :: content ++ l) := by
  intro l
  induction l with
  | nil =>
    refine ⟨List.Sublist.refl _, fun content => ?_⟩
    rw [subBrAux]
    simp
  | cons a r ih =>
    constructor
    · rw [subBrAux]
      by_cases ho : a = o
      · rw [if_pos ho]
        have h2 : (subBrAux o c (some []) r).Sublist (o :: r) := by
          simpa using ih.2 []
        rw [ho]
        exact h2.trans (List.Sublist.refl _)
      · rw [if_neg ho]
        by_cases hc : a = c
        · rw [if_pos hc]
          exact List.Sublist.cons₂ a ih.1
        · rw [if_neg hc]
          exact List.Sublist.cons₂ a ih.1
    · intro content
      rw [subBrAux]
      by_cases ho : a = o
      · rw [if_pos ho]
        have h2 : (subBrAux o c (some []) r).Sublist (o :: r) := by
          simpa using ih.2 []
        rw [ho]
        exact List.Sublist.append_left h2 (o :: content)
      · rw [if_neg ho]
        by_cases hc : a = c
        · rw [if_pos hc]
          exact (ih.1.trans (List.sublist_cons_self a r)).trans
            (List.sublist_append_right (o :: content) (a :: r))
        · rw [if_neg hc]
          have h2 := ih.2 (content ++ [a])
          have he : (o : Char) :: (content ++ [a]) ++ r = o :: content ++ a :: r := by
            simp
          rw [he] at h2
          exact h2

theorem subBr_sublist (o c : Char) (l : List Char) : (subBr o c l).Sublist l :=
  (subBrAux_sublist o c l).1

theorem stripComp_sublist (l : List Char) :
    (subBr '[' ']' (subBr '(' ')' l)).Sublist l :=
  (subBr_sublist '[' ']' _).trans (subBr_sublist '(' ')' l)

theorem stripLoop_reaches :
    ∀ (fuel : Nat) (l : List Char), l.length < fuel →
      subBr '[' ']' (subBr '(' ')' (stripLoop fuel l)) = stripLoop fuel l := by
  intro fuel
  induction fuel with
  | zero => intro l h; omega
  | succ n ih =>
    intro l h
    rw [stripLoop]
    by_cases he : subBr '[' ']' (subBr '(' ')' l) = l
    · rw [if_pos he]
      exact he
    · rw [if_neg he]
      have hlt : (subBr '[' ']' (subBr '(' ')' l)).length < l.length := by
        rcases Nat.lt_or_ge (subBr '[' ']' (subBr '(' ')' l)).length l.length with
          h1 | h1
        · exact h1
        · exact absurd ((stripComp_sublist l).eq_of_length
            (Nat.le_antisymm (stripComp_sublist l).length_le h1)) he
      exact ih _ (by omega)

theorem subBr_both_fix_of_comp (u : List Char)
    (h : subBr '[' ']' (subBr '(' ')' u) = u) :
    subBr '(' ')' u = u ∧ subBr '[' ']' u = u := by
  have h1 : (subBr '(' ')' u).Sublist u := subBr_sublist _ _ u
  have h2 : (subBr '[' ']' (subBr '(' ')' u)).Sublist (subBr '(' ')' u) :=
    subBr_sublist _ _ _
  rw [h] at h2
  have hlen : (subBr '(' ')' u).length = u.length :=
    Nat.le_antisymm h1.length_le h2.length_le
  have hfix1 : subBr '(' ')' u = u := h1.eq_of_length hlen
  rw [hfix1] at h
  exact ⟨hfix1, h⟩

theorem subBrAux_some_length_lt (o c : Char) (hne : c ≠ o) :
    ∀ (r : List Char) (content : List Char), c ∈ r →
      (subBrAux o c (some content) r).length < (o :: content ++ r).length := by
  intro r
  induction r with
  | nil => intro content h; exact absurd h (List.not_mem_nil c)
  | cons a t ih =>
    intro content h
    rw [subBrAux]
    by_cases ho : a = o
    · rw [if_pos ho]
      have hct : c ∈ t := by
        rcases List.mem_cons.mp h with rfl | ht
        · exact absurd ho hne
        · exact ht
      have := ih [] hct
      simp only [List.length_cons, List.length_append, List.length_nil] at this ⊢
      omega
    · rw [if_neg ho]
      by_cases hc : a = c
      · rw [if_pos hc]
        have := (subBrAux_sublist o c t).1.length_le
        simp only [List.length_cons, List.length_append] at *
        omega
      · rw [if_neg hc]
        have hct : c ∈ t := by
          rcases List.mem_cons.mp h with rfl | ht
          · exact absurd rfl hc
          · exact ht
        have := ih (content ++ [a]) hct
        simp only [List.length_cons, List.length_append, List.length_nil] at this ⊢
        omega

theorem subBr_length_lt_of_oc (o c : Char) (hne : c ≠ o) :
    ∀ x : List Char, [o, c].Sublist x → (subBr o c x).length < x.length := by
  intro x
  induction x with
  | nil => intro h; simp at h
  | cons a t ih =>
    intro h
    rw [subBr, subBrAux]
    by_cases ho : a = o
    · rw [if_pos ho]
      have hct : c ∈ t := by
        have hsub : c ∈ a :: t := h.subset (by simp)
        rcases List.mem_cons.mp hsub with rfl | htt
        · exact absurd ho hne
        · exact htt
      have := subBrAux_some_length_lt o c hne t [] hct
      simp only [List.length_cons, List.length_append, List.length_nil] at this ⊢
      omega
    · rw [if_neg ho]
      have ht : [o, c].Sublist t := by
        rcases List.sublist_cons_iff.mp h with h1 | ⟨r, hr, hrt⟩
        · exact h1
        · exact absurd (by injection hr with h1 h2; exact h1.symm) ho
      have := ih ht
      rw [subBr] at this
      by_cases hc : a = c
      · rw [if_pos hc]
        simp only [List.length_cons] at *
        omega
      · rw [if_neg hc]
        simp only [List.length_cons] at *
        omega

theorem subBrAux_some_no_c (o c : Char) :
    ∀ (S : List Char), c ∉ S →
      ∀ content, subBrAux o c (some content) S = o :: content ++ S := by
  intro S
  induction S with
  | nil => intro h content; rw [subBrAux]; simp
  | cons a t ih =>
    intro h content
    have hca : ¬ a = c := fun hh => h (by rw [hh]; exact List.mem_cons_self c t)
    have hct : c ∉ t := fun hh => h (List.mem_cons_of_mem a hh)
    rw [subBrAux]
    by_cases ho : a = o
    · rw [if_pos ho]
      rw [ih hct []]
      rw [ho]
      simp
    · rw [if_neg ho, if_neg hca]
      rw [ih hct (content ++ [a])]
      simp

theorem subBrAux_none_no_c (o c : Char) :
    ∀ (S : List Char), c ∉ S → subBrAux o c none S = S := by
  intro S
  induction S with
  | nil => intro h; rfl
  | cons a t ih =>
    intro h
    have hca : ¬ a = c := fun hh => h (by rw [hh]; exact List.mem_cons_self c t)
    have hct : c ∉ t := fun hh => h (List.mem_cons_of_mem a hh)
    rw [subBrAux]
    by_cases ho : a = o
    · rw [if_pos ho]
      rw [subBrAux_some_no_c o c t hct []]
      rw [ho]
      rfl
    · rw [if_neg ho, if_neg hca]
      rw [ih hct]

theorem subBr_of_decomp (o c : Char) :
    ∀ (P S : List Char), o ∉ P → c ∉ S → subBr o c (P ++ S) = P ++ S := by
  intro P
  induction P with
  | nil => intro S _ hS; exact subBrAux_none_no_c o c S hS
  | cons a P ih =>
    intro S hP hS
    have hao : ¬ a = o := fun hh => hP (by rw [hh]; exact List.mem_cons_self o P)
    have hPo : o ∉ P := fun hh => hP (List.mem_cons_of_mem a hh)
    rw [List.cons_append, subBr, subBrAux, if_neg hao]
    have ihx := ih S hPo hS
    rw [subBr] at ihx
    by_cases hc : a = c
    · rw [if_pos hc, ihx]
    · rw [if_neg hc, ihx]

theorem no_oc_decomp (o c : Char) (hne : c ≠ o) :
    ∀ x : List Char, ¬ [o, c].Sublist x →
      ∃ P S, x = P ++ S ∧ o ∉ P ∧ c ∉ S := by
  intro x
  induction x with
  | nil => intro h; exact ⟨[], [], rfl, List.not_mem_nil o, List.not_mem_nil c⟩
  | cons a t ih =>
    intro h
    by_cases ho : a = o
    · refine ⟨[], a :: t, rfl, List.not_mem_nil o, ?_⟩
      intro hc
      rcases List.mem_cons.mp hc with h1 | h1
      · exact hne (h1.trans ho)
      · exact h (by
          rw [ho]
          exact List.Sublist.cons₂ o (List.singleton_sublist.mpr h1))
    · obtain ⟨P, S, hx, hP, hS⟩ := ih (fun hh => h (hh.trans (List.sublist_cons_self a t)))
      refine ⟨a :: P, S, by rw [List.cons_append, hx], ?_, hS⟩
      intro hm
      rcases List.mem_cons.mp hm with h1 | h1
      · exact ho h1.symm
      · exact hP h1

theorem subBr_of_no_oc (o c : Char) (hne : c ≠ o) (x : List Char)
    (h : ¬ [o, c].Sublist x) : subBr o c x = x := by
  obtain ⟨P, S, hx, hP, hS⟩ := no_oc_decomp o c hne x h
  rw [hx]
  exact subBr_of_decomp o c P S hP hS

theorem punct_not_space (a : Char) (h : isPunctCls a = true) : pySpace a = false := by
  simp only [isPunctCls, Bool.or_eq_true, decide_eq_true_eq] at h
  rcases h with ((((rfl | rfl) | rfl) | rfl) | rfl) | rfl <;> rfl

theorem nonWs_collapseWsAux :
    ∀ (x : List Char) (b : Bool), nonWs (collapseWsAux b x) = nonWs x := by
  intro x
  induction x with
  | nil => intro b; rfl
  | cons a r ih =>
    intro b
    rw [collapseWsAux]
    by_cases hs : pySpace a
    · rw [if_pos hs]
      rw [nonWs, List.filter_append, ← nonWs, ← nonWs, ih true]
      have h1 : nonWs (if b then [] else [' ']) = [] := by
        cases b <;> rfl
      rw [h1, List.nil_append, nonWs, nonWs, List.filter_cons]
      rw [if_neg (by rw [hs]; simp)]
    · rw [if_neg hs]
      rw [nonWs, List.filter_cons, if_pos (by rw [show pySpace a = false from by
        revert hs; cases pySpace a <;> simp]; simp)]
      rw [nonWs, List.filter_cons, if_pos (by rw [show pySpace a = false from by
        revert hs; cases pySpace a <;> simp]; simp)]
      rw [← nonWs, ← nonWs, ih false]

theorem nonWs_fixPunctAux :
    ∀ (x pending : List Char), (∀ y ∈ pending, pySpace y = true) →
      nonWs (fixPunctAux pending x) = nonWs x := by
  intro x
  have hpend_nil : ∀ pending : List Char, (∀ y ∈ pending, pySpace y = true) →
      nonWs pending = [] := by
    intro pending hp
    rw [nonWs, List.filter_eq_nil_iff]
    intro y hy
    rw [hp y hy]
    simp
  induction x with
  | nil =>
    intro pending hp
    rw [fixPunctAux]
    exact hpend_nil pending hp
  | cons a r ih =>
    intro pending hp
    rw [fixPunctAux_cons]
    by_cases hs : pySpace a
    · rw [if_pos hs]
      rw [ih (pending ++ [a]) (by
        intro y hy
        rcases List.mem_append.mp hy with h1 | h1
        · exact hp y h1
        · rw [List.eq_of_mem_singleton h1]; exact hs)]
      simp only [nonWs, List.filter_cons]
      rw [if_neg (by rw [hs]; simp)]
    · rw [if_neg hs]
      have hsf : pySpace a = false := by revert hs; cases pySpace a <;> simp
      by_cases hpc : isPunctCls a
      · rw [if_pos hpc]
        rw [nonWs, List.filter_cons, if_pos (by rw [hsf]; simp)]
        rw [nonWs, List.filter_cons, if_pos (by rw [hsf]; simp)]
        rw [← nonWs, ← nonWs, ih [] (by intro y hy; simp at hy)]
      · rw [if_neg hpc]
        rw [nonWs, List.filter_append, ← nonWs, ← nonWs,
          hpend_nil pending hp, List.nil_append]
        rw [nonWs, List.filter_cons, if_pos (by rw [hsf]; simp)]
        rw [nonWs, List.filter_cons, if_pos (by rw [hsf]; simp)]
        rw [← nonWs, ← nonWs, ih [] (by intro y hy; simp at hy)]


theorem oc_sublist_transfer (o c : Char) (ho : pySpace o = false)
    (hc : pySpace c = false) (x y : List Char) (hnw : nonWs x = nonWs y)
    (h : [o, c].Sublist x) : [o, c].Sublist y := by
  have h1 := h.filter (fun ch => !pySpace ch)
  have h2 : [o, c].filter (fun ch => !pySpace ch) = [o, c] := by
    simp [ho, hc]
  rw [h2] at h1
  rw [show x.filter (fun ch => !pySpace ch) = nonWs x from rfl, hnw] at h1
  exact h1.trans (List.filter_sublist y)

theorem collapseWsAux_ws_mem :
    ∀ (x : List Char) (b : Bool) (y : Char), y ∈ collapseWsAux b x →
      pySpace y = true → y = ' ' := by
  intro x
  induction x with
  | nil => intro b y hy; simp [collapseWsAux] at hy
  | cons a r ih =>
    intro b y hy hws
    rw [collapseWsAux] at hy
    by_cases hs : pySpace a
    · rw [if_pos hs] at hy
      rcases List.mem_append.mp hy with h1 | h1
      · cases b with
        | true => simp at h1
        | false =>
          rw [List.eq_of_mem_singleton h1]
      · exact ih true y h1 hws
    · rw [if_neg hs] at hy
      rcases List.mem_cons.mp hy with rfl | h1
      · exact absurd hws hs
      · exact ih false y h1 hws

theorem collapseWsAux_head_true :
    ∀ (x : List Char) (y : Char), (collapseWsAux true x).head? = some y →
      pySpace y = false := by
  intro x
  induction x with
  | nil => intro y hy; simp [collapseWsAux] at hy
  | cons a r ih =>
    intro y hy
    rw [collapseWsAux] at hy
    by_cases hs : pySpace a
    · rw [if_pos hs] at hy
      rw [if_pos rfl, List.nil_append] at hy
      exact ih y hy
    · rw [if_neg hs] at hy
      rw [List.head?_cons] at hy
      cases hy
      revert hs
      cases pySpace a <;> simp

theorem collapseWsAux_chain :
    ∀ (x : List Char) (b : Bool),
      List.Chain' (fun a b => ¬(pySpace a = true ∧ pySpace b = true))
        (collapseWsAux b x) := by
  intro x
  induction x with
  | nil => intro b; rw [collapseWsAux]; exact List.chain'_nil
  | cons a r ih =>
    intro b
    rw [collapseWsAux]
    by_cases hs : pySpace a
    · rw [if_pos hs]
      cases b with
      | true =>
        rw [if_pos rfl, List.nil_append]
        exact ih true
      | false =>
        rw [if_neg (by simp), List.singleton_append]
        rw [List.chain'_cons']
        refine ⟨?_, ih true⟩
        intro y hy
        have := collapseWsAux_head_true r y hy
        intro hand
        rw [this] at hand
        exact absurd hand.2 (by simp)
    · rw [if_neg hs]
      rw [List.chain'_cons']
      refine ⟨?_, ih false⟩
      intro y _
      intro hand
      exact hs hand.1

theorem collapseWs_id (x : List Char)
    (h1 : ∀ a ∈ x, pySpace a = true → a = ' ')
    (h2 : List.Chain' (fun a b => ¬(pySpace a = true ∧ pySpace b = true)) x) :
    collapseWs x = x := by
  rw [collapseWs]
  induction x with
  | nil => rfl
  | cons a r ih =>
    rw [collapseWsAux]
    by_cases hs : pySpace a
    · rw [if_pos hs]
      rw [if_neg (by simp), List.singleton_append]
      have ha : a = ' ' := h1 a (List.mem_cons_self a r) hs
      cases r with
      | nil =>
        rw [show collapseWsAux true [] = [] from rfl, ha]
      | cons b r2 =>
        have hrel : ¬(pySpace a = true ∧ pySpace b = true) :=
          (List.chain'_cons.mp h2).1
        have hb : pySpace b = false := by
          rcases Bool.eq_false_or_eq_true (pySpace b) with hh | hh
          · exact absurd ⟨hs, hh⟩ hrel
          · exact hh
        have ihr := ih (fun z hz => h1 z (List.mem_cons_of_mem a hz))
          (List.Chain'.tail h2)
        rw [collapseWsAux, if_neg (by rw [hb]; simp)] at ihr ⊢
        rw [ihr, ha]
    · rw [if_neg hs]
      rw [ih (fun z hz => h1 z (List.mem_cons_of_mem a hz)) (List.Chain'.tail h2)]

theorem fixPunctAux_mem :
    ∀ (x pending : List Char) (y : Char), y ∈ fixPunctAux pending x →
      y ∈ pending ∨ y ∈ x := by
  intro x
  induction x with
  | nil => intro pending y hy; rw [fixPunctAux] at hy; exact Or.inl hy
  | cons a r ih =>
    intro pending y hy
    rw [fixPunctAux_cons] at hy
    by_cases hs : pySpace a
    · rw [if_pos hs] at hy
      rcases ih (pending ++ [a]) y hy with h1 | h1
      · rcases List.mem_append.mp h1 with h2 | h2
        · exact Or.inl h2
        · exact Or.inr (by rw [List.eq_of_mem_singleton h2]; exact List.mem_cons_self a r)
      · exact Or.inr (List.mem_cons_of_mem a h1)
    · rw [if_neg hs] at hy
      by_cases hpc : isPunctCls a
      · rw [if_pos hpc] at hy
        rcases List.mem_cons.mp hy with rfl | h1
        · exact Or.inr (List.mem_cons_self y r)
        · rcases ih [] y h1 with h2 | h2
          · simp at h2
          · exact Or.inr (List.mem_cons_of_mem a h2)
      · rw [if_neg hpc] at hy
        rcases List.mem_append.mp hy with h1 | h1
        · exact Or.inl h1
        · rcases List.mem_cons.mp h1 with rfl | h2
          · exact Or.inr (List.mem_cons_self y r)
          · rcases ih [] y h2 with h3 | h3
            · simp at h3
            · exact Or.inr (List.mem_cons_of_mem a h3)

theorem allws_chain (R : Char → Char → Prop)
    (hR : ∀ a b, pySpace b = true → R a b) :
    ∀ pending : List Char, (∀ y ∈ pending, pySpace y = true) →
      List.Chain' R pending := by
  intro pending
  induction pending with
  | nil => intro h; exact List.chain'_nil
  | cons a t ih =>
    intro h
    rw [List.chain'_cons']
    refine ⟨?_, ih (fun z hz => h z (List.mem_cons_of_mem a hz))⟩
    intro y hy
    have hyt : y ∈ t := List.mem_of_mem_head? hy
    exact hR a y (h y (List.mem_cons_of_mem a hyt))

theorem ws_not_punct (a : Char) (h : pySpace a = true) : isPunctCls a = false := by
  rcases Bool.eq_false_or_eq_true (isPunctCls a) with hh | hh
  · rw [punct_not_space a hh] at h
    cases h
  · exact hh

theorem fixPunctAux_chain_P3 :
    ∀ (x pending : List Char), (∀ y ∈ pending, pySpace y = true) →
      List.Chain' (fun a b => ¬(pySpace a = true ∧ isPunctCls b = true))
        (fixPunctAux pending x) := by
  have hRws : ∀ a b : Char, pySpace b = true →
      ¬(pySpace a = true ∧ isPunctCls b = true) := by
    intro a b hb hand
    rw [ws_not_punct b hb] at hand
    cases hand.2
  intro x
  induction x with
  | nil =>
    intro pending hp
    rw [fixPunctAux]
    exact allws_chain _ hRws pending hp
  | cons a r ih =>
    intro pending hp
    rw [fixPunctAux_cons]
    by_cases hs : pySpace a
    · rw [if_pos hs]
      exact ih (pending ++ [a]) (by
        intro y hy
        rcases List.mem_append.mp hy with h1 | h1
        · exact hp y h1
        · rw [List.eq_of_mem_singleton h1]; exact hs)
    · rw [if_neg hs]
      have hih := ih [] (by intro y hy; simp at hy)
      by_cases hpc : isPunctCls a
      · rw [if_pos hpc]
        rw [List.chain'_cons']
        exact ⟨fun y _ hand => hs hand.1, hih⟩
      · rw [if_neg hpc]
        rw [List.chain'_append]
        refine ⟨allws_chain _ hRws pending hp, ?_, ?_⟩
        · rw [List.chain'_cons']
          exact ⟨fun y _ hand => hs hand.1, hih⟩
        · intro z hz y hy
          rw [List.head?_cons] at hy
          cases hy
          exact fun hand => hpc hand.2

theorem fixPunctAux_chain_Q :
    ∀ (x pending : List Char),
      List.Chain' (fun a b => ¬(pySpace a = true ∧ pySpace b = true)) (pending ++ x) →
      (∀ y ∈ pending, pySpace y = true) →
      List.Chain' (fun a b => ¬(pySpace a = true ∧ pySpace b = true))
        (fixPunctAux pending x) := by
  intro x
  induction x with
  | nil =>
    intro pending hch hp
    rw [fixPunctAux]
    rw [List.append_nil] at hch
    exact hch
  | cons a r ih =>
    intro pending hch hp
    rw [fixPunctAux_cons]
    by_cases hs : pySpace a
    · rw [if_pos hs]
      refine ih (pending ++ [a]) ?_ ?_
      · rw [List.append_assoc, List.singleton_append]
        exact hch
      · intro y hy
        rcases List.mem_append.mp hy with h1 | h1
        · exact hp y h1
        · rw [List.eq_of_mem_singleton h1]; exact hs
    · rw [if_neg hs]
      have hchr : List.Chain'
          (fun a b => ¬(pySpace a = true ∧ pySpace b = true)) r :=
        ((List.chain'_append.mp hch).2.1).tail
      have hih := ih [] (by rw [List.nil_append]; exact hchr)
        (by intro y hy; simp at hy)
      by_cases hpc : isPunctCls a
      · rw [if_pos hpc]
        rw [List.chain'_cons']
        exact ⟨fun y _ hand => hs hand.1, hih⟩
      · rw [if_neg hpc]
        rw [List.chain'_append]
        refine ⟨(List.chain'_append.mp hch).1, ?_, ?_⟩
        · rw [List.chain'_cons']
          exact ⟨fun y _ hand => hs hand.1, hih⟩
        · intro z hz y hy
          rw [List.head?_cons] at hy
          cases hy
          exact fun hand => hs hand.2

theorem fixPunct_id :
    ∀ (x pending : List Char),
      List.Chain' (fun a b => ¬(pySpace a = true ∧ isPunctCls b = true))
        (pending ++ x) →
      (∀ y ∈ pending, pySpace y = true) →
      fixPunctAux pending x = pending ++ x := by
  intro x
  induction x with
  | nil =>
    intro pending _ _
    rw [fixPunctAux, List.append_nil]
  | cons a r ih =>
    intro pending hch hp
    rw [fixPunctAux_cons]
    by_cases hs : pySpace a
    · rw [if_pos hs]
      rw [ih (pending ++ [a]) (by
            rw [List.append_assoc, List.singleton_append]
            exact hch)
          (by
            intro y hy
            rcases List.mem_append.mp hy with h1 | h1
            · exact hp y h1
            · rw [List.eq_of_mem_singleton h1]; exact hs)]
      rw [List.append_assoc, List.singleton_append]
    · rw [if_neg hs]
      have hchr : List.Chain'
          (fun a b => ¬(pySpace a = true ∧ isPunctCls b = true)) r :=
        ((List.chain'_append.mp hch).2.1).tail
      have hih := ih [] (by rw [List.nil_append]; exact hchr)
        (by intro y hy; simp at hy)
      rw [List.nil_append] at hih
      by_cases hpc : isPunctCls a
      · rw [if_pos hpc]
        have hpnil : pending = [] := by
          rcases List.eq_nil_or_concat pending with h1 | ⟨t, z, h1⟩
          · exact h1
          · exfalso
            have hlink := (List.chain'_append.mp hch).2.2
            have hz : z ∈ pending.getLast? := by
              rw [h1, List.concat_eq_append, List.getLast?_concat]
              rfl
            have := hlink z hz a (by rw [List.head?_cons]; rfl)
            exact this ⟨hp z (by
              rw [h1, List.concat_eq_append]
              exact List.mem_append_right t (List.mem_singleton_self z)), hpc⟩
        rw [hpnil, List.nil_append, hih]
      · rw [if_neg hpc]
        rw [hih]

theorem pyStrip_infix (x : List Char) : (pyStrip x).IsInfix x := by
  rw [pyStrip]
  have hd : (x.dropWhile pySpace).IsSuffix x := List.dropWhile_suffix pySpace
  have he : ((x.dropWhile pySpace).reverse.dropWhile pySpace).IsSuffix
      (x.dropWhile pySpace).reverse := List.dropWhile_suffix pySpace
  have hp : ((x.dropWhile pySpace).reverse.dropWhile pySpace).reverse.IsPrefix
      (x.dropWhile pySpace) := by
    have := List.reverse_prefix.mpr he
    rwa [List.reverse_reverse] at this
  exact hp.isInfix.trans hd.isInfix

theorem dropWhile_head_false :
    ∀ (l : List Char) (a : Char), (l.dropWhile pySpace).head? = some a →
      pySpace a = false := by
  intro l
  induction l with
  | nil => intro a h; simp at h
  | cons b r ih =>
    intro a h
    rw [List.dropWhile_cons] at h
    by_cases hb : pySpace b
    · rw [if_pos hb] at h
      exact ih a h
    · rw [if_neg hb] at h
      rw [List.head?_cons] at h
      cases h
      revert hb
      cases pySpace b <;> simp

theorem pyStrip_head_false (x : List Char) (a : Char)
    (h : (pyStrip x).head? = some a) : pySpace a = false := by
  rw [pyStrip] at h
  rw [List.head?_reverse] at h
  have hsuf : ((x.dropWhile pySpace).reverse.dropWhile pySpace).IsSuffix
      (x.dropWhile pySpace).reverse := List.dropWhile_suffix pySpace
  obtain ⟨t, ht⟩ := hsuf
  have hne : (x.dropWhile pySpace).reverse.dropWhile pySpace ≠ [] := by
    intro hnil
    rw [hnil] at h
    simp at h
  have hlast : ((x.dropWhile pySpace).reverse.dropWhile pySpace).getLast? =
      (x.dropWhile pySpace).reverse.getLast? := by
    conv_rhs => rw [← ht]
    exact (List.getLast?_append_of_ne_nil t hne).symm
  rw [hlast, List.getLast?_reverse] at h
  exact dropWhile_head_false x a h

theorem pyStrip_getLast_false (x : List Char) (a : Char)
    (h : (pyStrip x).getLast? = some a) : pySpace a = false := by
  rw [pyStrip, List.getLast?_reverse] at h
  exact dropWhile_head_false _ a h

theorem pyStrip_idem (x : List Char) : pyStrip (pyStrip x) = pyStrip x :=
  pyStrip_eq_self (pyStrip x) (pyStrip_head_false x) (pyStrip_getLast_false x)

theorem chain_of_infix (R : Char → Char → Prop) (l m : List Char)
    (h : m.IsInfix l) (hch : List.Chain' R l) : List.Chain' R m := by
  obtain ⟨s, t, hst⟩ := h
  rw [← hst] at hch
  exact (List.chain'_append.mp (List.chain'_append.mp hch).1).2.1

/-- C10: `_strip_parenthetical` is idempotent — applying it to its own
output changes nothing: bracket removal has already been run to a
fixpoint, the output has no whitespace run of length two or more and no
whitespace before `[,;:.!?]` punctuation, every whitespace character in
it is a single space, and it is already stripped, so a second pass leaves
it unchanged. -/
theorem strip_parenthetical_idempotent (l : List Char) :
    _strip_parenthetical (_strip_parenthetical l) = _strip_parenthetical l := by
  unfold _strip_parenthetical
  set u := stripLoop (l.length + 1) l with hu
  set v := collapseWs u with hv
  set w := fixPunct v with hw
  set m := pyStrip w with hm
  have hcomp : subBr '[' ']' (subBr '(' ')' u) = u :=
    stripLoop_reaches (l.length + 1) l (Nat.lt_succ_self _)
  obtain ⟨hfP, hfB⟩ := subBr_both_fix_of_comp u hcomp
  have hnoP : ¬ ['(', ')'].Sublist u := by
    intro h
    have hh := subBr_length_lt_of_oc '(' ')' (by decide) u h
    rw [hfP] at hh
    exact Nat.lt_irrefl _ hh
  have hnoB : ¬ ['[', ']'].Sublist u := by
    intro h
    have hh := subBr_length_lt_of_oc '[' ']' (by decide) u h
    rw [hfB] at hh
    exact Nat.lt_irrefl _ hh
  have hnw : nonWs m = nonWs u := by
    rw [hm, nonWs_pyStrip, hw,
      show fixPunct v = fixPunctAux [] v from rfl,
      nonWs_fixPunctAux v [] (by intro y hy; simp at hy), hv]
    exact nonWs_collapseWsAux u false
  have hmP : ¬ ['(', ')'].Sublist m := fun h =>
    hnoP (oc_sublist_transfer '(' ')' (by decide) (by decide) m u hnw h)
  have hmB : ¬ ['[', ']'].Sublist m := fun h =>
    hnoB (oc_sublist_transfer '[' ']' (by decide) (by decide) m u hnw h)
  have hmComp : subBr '[' ']' (subBr '(' ')' m) = m := by
    rw [subBr_of_no_oc '(' ')' (by decide) m hmP,
      subBr_of_no_oc '[' ']' (by decide) m hmB]
  have hvQ : List.Chain' (fun a b => ¬(pySpace a = true ∧ pySpace b = true)) v :=
    collapseWsAux_chain u false
  have hwQ : List.Chain' (fun a b => ¬(pySpace a = true ∧ pySpace b = true)) w :=
    fixPunctAux_chain_Q v [] (by rw [List.nil_append]; exact hvQ)
      (by intro y hy; simp at hy)
  have hwP3 : List.Chain' (fun a b => ¬(pySpace a = true ∧ isPunctCls b = true)) w :=
    fixPunctAux_chain_P3 v [] (by intro y hy; simp at hy)
  have hmInf : m.IsInfix w := pyStrip_infix w
  have hmQ : List.Chain' (fun a b => ¬(pySpace a = true ∧ pySpace b = true)) m :=
    chain_of_infix _ w m hmInf hwQ
  have hmP3 : List.Chain' (fun a b => ¬(pySpace a = true ∧ isPunctCls b = true)) m :=
    chain_of_infix _ w m hmInf hwP3
  have hmWs : ∀ a ∈ m, pySpace a = true → a = ' ' := by
    intro a ha hws
    have haw : a ∈ w := hmInf.sublist.subset ha
    rcases fixPunctAux_mem v [] a haw with h1 | h1
    · simp at h1
    · exact collapseWsAux_ws_mem u false a h1 hws
  have hcw : collapseWs m = m := collapseWs_id m hmWs hmQ
  have hfp : fixPunct m = m := by
    rw [show fixPunct m = fixPunctAux [] m from rfl]
    rw [fixPunct_id m [] (by rw [List.nil_append]; exact hmP3)
      (by intro y hy; simp at hy)]
    rw [List.nil_append]
  have hps : pyStrip m = m := pyStrip_idem w
  rw [stripLoop_fix m hmComp (m.length + 1), hcw, hfp, hps]

theorem chunk_budget_amended_witness :
    ['h', 'i'] ∈ split_text_into_chunks ['h', 'i'] CHUNK_MAX_CHARS ∧
    (['h', 'i'].length ≤ CHUNK_MAX_CHARS ∨ hasPair '.' ['h', 'i'] = false) :=
  ⟨by decide, chunk_budget_amended ['h', 'i'] ['h', 'i'] (by decide)⟩

theorem plan_ordering_witness :
    List.Chain' (· < ·) (wBook.chapters.map Chapter.index) ∧
    (List.Chain' (· ≤ ·) ((_plan_chunks wBook).map ChunkPlanEntry.chapter_index) ∧
    (∀ i j k : Fin (_plan_chunks wBook).length, i ≤ j → j ≤ k →
      ((_plan_chunks wBook).get i).chapter_index =
        ((_plan_chunks wBook).get k).chapter_index →
      ((_plan_chunks wBook).get j).chapter_index =
        ((_plan_chunks wBook).get k).chapter_index) ∧
    ∀ n, ((_plan_chunks wBook).filter
        (fun e => decide (e.chapter_index = n))).map ChunkPlanEntry.chunk_index =
      List.range (((_plan_chunks wBook).filter
        (fun e => decide (e.chapter_index = n))).length)) :=
  ⟨by
    rw [show wBook.chapters.map Chapter.index = [1, 2] from rfl]
    exact List.chain'_pair.mpr (by decide),
   plan_ordering wBook (by
    rw [show wBook.chapters.map Chapter.index = [1, 2] from rfl]
    exact List.chain'_pair.mpr (by decide))⟩

theorem plan_never_empty_witness :
    (['h'] : List Char) ≠ [] ∧
    (split_text_into_chunks ['h'] CHUNK_MAX_CHARS ≠ [] ∧
      ∀ ch ∈ wBook.chapters, ch.text ≠ [] →
        ∃ e ∈ _plan_chunks wBook, e.chapter_index = ch.index) :=
  ⟨by decide, plan_never_empty ['h'] wBook (by decide)⟩

theorem fallback_never_blocks_amended_witness :
    (∀ i a, pokFail i a = false) ∧
    (∀ i, _check_cancelled (cvNone i) = false) ∧
    ((run_generation cvNone pokFail wBook).status = JobStatus.done ∧
    (run_generation cvNone pokFail wBook).outputs =
      (_plan_chunks wBook).map (fun _ => AudioOut.silence) ∧
    (run_generation cvNone pokFail wBook).failed_chunks =
      ((_plan_chunks wBook).filter
        (fun e => decide (pyStrip (pySanitize e.text) ≠ []))).length) :=
  ⟨fun i a => rfl, fun i => rfl,
    fallback_never_blocks_amended cvNone pokFail wBook
      (fun i a => rfl) (fun i => rfl)⟩

theorem toc_density_amended_witness :
    100 ≤ (pyStrip wText6).length ∧
    30 ≤ pyWordCount (pyStrip wText6) ∧
    (∀ s ∈ skip_titles, hasSubstr s (pyLower cexTitle6) = false) ∧
    5 < (nonEmptyLines (pyStrip wText6)).length ∧
    2 * (nonEmptyLines (pyStrip wText6)).length <
      5 * pageRefCount (pyStrip wText6) ∧
    is_content_chapter wText6 cexTitle6 = false :=
  ⟨by decide, by decide, by decide, by decide, by decide,
    toc_density_amended wText6 cexTitle6 (by decide) (by decide) (by decide)
      (by decide) (by decide)⟩

theorem filter_recompute_amended_witness :
    cexBook7.chapters.filter (fun ch => [1].contains ch.index) ≠ [] ∧
    (∃ out, api_generate_filter cexBook7 [1] = some out ∧
      out.chapters = cexBook7.chapters.filter (fun ch => [1].contains ch.index) ∧
      out.total_words =
        ((cexBook7.chapters.filter (fun ch => [1].contains ch.index)).map
          Chapter.word_count).sum ∧
      out.estimated_duration_minutes =
        ((((cexBook7.chapters.filter (fun ch => [1].contains ch.index)).map
          Chapter.word_count).sum : Nat) : Rat) / 150 ∧
      out.total_chars = cexBook7.total_chars ∧
      out.title = cexBook7.title ∧ out.author = cexBook7.author ∧
      out.language = cexBook7.language) :=
  ⟨by decide, filter_recompute_amended cexBook7 [1] (by decide)⟩

theorem cancellation_stops_processing_witness :
    0 < (_plan_chunks wBook).length ∧
    (∀ j, j < 0 → _check_cancelled (cvCancelNow j) = false) ∧
    _check_cancelled (cvCancelNow 0) = true ∧
    ((∀ v : CancelView, _check_cancelled v =
      (v.cancelled || (!v.email_registered &&
        decide ((60 : Rat) < v.elapsed_since_poll)))) ∧
    (run_generation cvCancelNow pokFail wBook).status = JobStatus.cancelled ∧
    (run_generation cvCancelNow pokFail wBook).outputs.length = 0) :=
  ⟨by decide, fun j hj => absurd hj (Nat.not_lt_zero j), rfl,
    cancellation_stops_processing cvCancelNow pokFail wBook 0 (by decide)
      (fun j hj => absurd hj (Nat.not_lt_zero j)) rfl⟩

theorem empty_chunk_skips_provider_witness :
    pyStrip (pySanitize [' ']) = [] ∧
    generate_chunk_mp3 (pokFail 0) [' '] 3 = ⟨AudioOut.silence, false, 0⟩ :=
  ⟨by decide, empty_chunk_skips_provider (pokFail 0) [' '] 3 (by decide)⟩
